import Mathlib

/-!
Verification development for the graphql-normalized repository.

The TypeScript sources under src/ (index.ts, equivalence.ts, equality.ts) are
shallowly embedded below.  GraphQL AST nodes become inductive types; the
visitor-based passes of index.ts become explicit recursive functions carrying
the type-tracking context that graphql-js TypeInfo maintains (the visitor and
TypeInfo are external collaborators; their observable behaviour on the shapes
used by index.ts is reproduced by the recursion structure).  Machine-level
concerns do not arise: all data are strings, booleans and lists.

Loops that are not structurally recursive in the source (the do/while
fixed-point loop of deduplicateSelections, and fragment expansion, which
recurses through a fragment-name map) take an explicit fuel argument; the
fuel bounds chosen are proved sufficient where a claim depends on it.
-/

namespace GqlNorm

/-- GraphQL value nodes (the ValueNode union of the graphql package, as used
by equivalence.ts).  Int/Float literals keep their source text, as in the
graphql AST.  String values carry the block flag used by removeBlockStrings. -/
inductive Value where
  | var (name : String)
  | intV (value : String)
  | floatV (value : String)
  | stringV (value : String) (block : Bool)
  | boolV (value : Bool)
  | nullV
  | enumV (value : String)
  | listV (values : List Value)
  | objectV (fields : List (String × Value))

/-- An argument node: name plus value. -/
structure Argument where
  name : String
  value : Value

/-- A directive node: name plus argument list. -/
structure Directive where
  name : String
  args : List Argument

/-- Selection nodes: Field, InlineFragment, FragmentSpread.  A field may lack
a selection set (none) or have one; an inline fragment always has one. -/
inductive Selection where
  | field (fAlias : Option String) (name : String) (args : List Argument)
      (directives : List Directive) (selectionSet : Option (List Selection))
  | inlineFragment (typeCondition : Option String) (directives : List Directive)
      (selectionSet : List Selection)
  | fragmentSpread (name : String) (directives : List Directive)

inductive OperationType where
  | query
  | mutation
  | subscription

/-- Executable definitions of a document.  Variable definitions of
operations are not modelled: no pass inspects them and no claim concerns
them. -/
inductive Definition where
  | operation (opType : OperationType) (name : Option String)
      (directives : List Directive) (selectionSet : List Selection)
  | fragmentDefinition (name : String) (typeCondition : String)
      (directives : List Directive) (selectionSet : List Selection)

/-- A document is its list of definitions. -/
abbrev Document := List Definition

mutual
/-- Number of selection nodes in a selection, itself included. -/
def szS : Selection → Nat
  | .field _ _ _ _ none => 1
  | .field _ _ _ _ (some ss) => 1 + szL ss
  | .inlineFragment _ _ ss => 1 + szL ss
  | .fragmentSpread _ _ => 1

/-- Number of selection nodes in a selection list. -/
def szL : List Selection → Nat
  | [] => 0
  | s :: rest => szS s + szL rest
end

/-- Total selection-node count of a document. -/
def szDoc : Document → Nat
  | [] => 0
  | .operation _ _ _ ss :: rest => szL ss + szDoc rest
  | .fragmentDefinition _ _ _ ss :: rest => szL ss + szDoc rest

mutual
/-- equivalence.ts valuesAreEquivalent: kind-wise comparison; string block
form is ignored (only the value text is compared). -/
def valuesAreEquivalent : Value → Value → Bool
  | .var a, .var b => a == b
  | .intV a, .intV b => a == b
  | .floatV a, .floatV b => a == b
  | .stringV a _, .stringV b _ => a == b
  | .boolV a, .boolV b => a == b
  | .nullV, .nullV => true
  | .enumV a, .enumV b => a == b
  | .listV as, .listV bs => as.length == bs.length && valueListsAreEquivalent as bs
  | .objectV af, .objectV bf => af.length == bf.length && objectFieldsAreEquivalent af bf
  | _, _ => false

/-- Positional comparison of list-value elements (the loop in the LIST case
of valuesAreEquivalent; it runs under an equal-length check). -/
def valueListsAreEquivalent : List Value → List Value → Bool
  | [], _ => true
  | _ :: _, [] => false
  | a :: as, b :: bs => valuesAreEquivalent a b && valueListsAreEquivalent as bs

/-- The OBJECT case of valuesAreEquivalent: each field of the first object is
looked up by name in a map built from the second object (later entries of the
second object overwrite earlier ones, hence the reversed find). -/
def objectFieldsAreEquivalent : List (String × Value) → List (String × Value) → Bool
  | [], _ => true
  | (n, v) :: rest, bf =>
    (match bf.reverse.find? (fun f => f.1 == n) with
      | none => false
      | some f => valuesAreEquivalent v f.2)
    && objectFieldsAreEquivalent rest bf
end

/-- The per-argument loop of argumentsAreEquivalent: every argument of the
first list must be found by name in the (last-wins) map of the second list
with an equivalent value. -/
def argsAllFoundIn : List Argument → List Argument → Bool
  | [], _ => true
  | a :: rest, b =>
    (match b.reverse.find? (fun arg => arg.name == a.name) with
      | none => false
      | some bArg => valuesAreEquivalent a.value bArg.value)
    && argsAllFoundIn rest b

/-- equivalence.ts argumentsAreEquivalent: same length, and every argument of
the first list matches one of the second by name (order-insensitive). -/
def argumentsAreEquivalent (a b : List Argument) : Bool :=
  a.length == b.length && argsAllFoundIn a b

/-- The pairwise loop of directivesAreEquivalent (runs under an equal-length
check): names and argument lists are compared positionally. -/
def directivePairsAreEquivalent : List Directive → List Directive → Bool
  | [], _ => true
  | _ :: _, [] => false
  | a :: as, b :: bs =>
    a.name == b.name && argumentsAreEquivalent a.args b.args
      && directivePairsAreEquivalent as bs

/-- equivalence.ts directivesAreEquivalent: same length and positionally
equivalent (order-sensitive). -/
def directivesAreEquivalent (a b : List Directive) : Bool :=
  a.length == b.length && directivePairsAreEquivalent a b

/-- equivalence.ts fieldsAreEquivalent, over the shallow components of two
field nodes: response keys (alias-or-name), arguments, directives. -/
def fieldsAreEquivalent (alias₁ : Option String) (name₁ : String)
    (args₁ : List Argument) (dirs₁ : List Directive)
    (alias₂ : Option String) (name₂ : String)
    (args₂ : List Argument) (dirs₂ : List Directive) : Bool :=
  (alias₁.getD name₁ == alias₂.getD name₂)
    && argumentsAreEquivalent args₁ args₂
    && directivesAreEquivalent dirs₁ dirs₂

/-- equivalence.ts inlineFragmentsAreEquivalent, over the shallow components
of two inline fragments: both type conditions absent or both present and
equal, and equivalent directives.  Selection sets are not compared. -/
def inlineFragmentsAreEquivalent (cond₁ : Option String) (dirs₁ : List Directive)
    (cond₂ : Option String) (dirs₂ : List Directive) : Bool :=
  (match cond₁, cond₂ with
    | some a, some b => a == b
    | none, none => true
    | _, _ => false)
    && directivesAreEquivalent dirs₁ dirs₂

/-- equivalence.ts fragmentSpreadsAreEquivalent: same name, equivalent
directives. -/
def fragmentSpreadsAreEquivalent (name₁ : String) (dirs₁ : List Directive)
    (name₂ : String) (dirs₂ : List Directive) : Bool :=
  name₁ == name₂ && directivesAreEquivalent dirs₁ dirs₂

/-- equivalence.ts selectionsAreEquivalent: shallow equivalence, dispatching
on the selection kind; different kinds are never equivalent. -/
def selectionsAreEquivalent : Selection → Selection → Bool
  | .field al₁ n₁ as₁ ds₁ _, .field al₂ n₂ as₂ ds₂ _ =>
    fieldsAreEquivalent al₁ n₁ as₁ ds₁ al₂ n₂ as₂ ds₂
  | .inlineFragment c₁ d₁ _, .inlineFragment c₂ d₂ _ =>
    inlineFragmentsAreEquivalent c₁ d₁ c₂ d₂
  | .fragmentSpread n₁ d₁, .fragmentSpread n₂ d₂ =>
    fragmentSpreadsAreEquivalent n₁ d₁ n₂ d₂
  | _, _ => false

mutual
/-- equality.ts selectionsAreEqual: deep equality, refining equivalence by
recursively comparing nested selection sets; fragment spreads use the shallow
rule. -/
def selectionsAreEqual : Selection → Selection → Bool
  | .field al₁ n₁ as₁ ds₁ sub₁, .field al₂ n₂ as₂ ds₂ sub₂ =>
    fieldsAreEquivalent al₁ n₁ as₁ ds₁ al₂ n₂ as₂ ds₂
      && (match sub₁, sub₂ with
        | none, none => true
        | none, some _ => false
        | some _, none => false
        | some x, some y => selectionSetsAreEqual x y)
  | .inlineFragment c₁ d₁ b₁, .inlineFragment c₂ d₂ b₂ =>
    inlineFragmentsAreEquivalent c₁ d₁ c₂ d₂ && selectionSetsAreEqual b₁ b₂
  | .fragmentSpread n₁ d₁, .fragmentSpread n₂ d₂ =>
    fragmentSpreadsAreEquivalent n₁ d₁ n₂ d₂
  | _, _ => false

/-- equality.ts selectionSetsAreEqual: same length, positionally equal. -/
def selectionSetsAreEqual : List Selection → List Selection → Bool
  | [], [] => true
  | _ :: _, [] => false
  | [], _ :: _ => false
  | a :: as, b :: bs => selectionsAreEqual a b && selectionSetsAreEqual as bs
end

/-! ## Schema model (the SchemaOracle / graphql-js TypeInfo collaborator) -/

inductive TypeKind where
  | scalarTK
  | objectTK
  | interfaceTK
  | unionTK
  | enumTK
deriving DecidableEq

/-- Possibly wrapped GraphQL type, as returned by field definitions. -/
inductive GType where
  | named (name : String)
  | listOf (ofType : GType)
  | nonNull (ofType : GType)

/-- Schema as consumed by index.ts: root type names, a kind per named type,
and the declared type of each field of each object/interface type. -/
structure Schema where
  queryType : Option String
  mutationType : Option String
  subscriptionType : Option String
  kindOf : String → Option TypeKind
  fieldType : String → String → Option GType

/-- getNamedType: the name at the base of a wrapped type. -/
def baseName : GType → String
  | .named n => n
  | .listOf t => baseName t
  | .nonNull t => baseName t

def isCompositeKind : TypeKind → Bool
  | .objectTK => true
  | .interfaceTK => true
  | .unionTK => true
  | _ => false

/-- TypeInfo enter(SelectionSet): the parent type is the named base of the
current type when that base is a composite type, else undefined. -/
def parentTypeName (sch : Schema) (cur : Option GType) : Option String :=
  match cur with
  | none => none
  | some t =>
    match sch.kindOf (baseName t) with
    | some k => if isCompositeKind k then some (baseName t) else none
    | none => none

/-- TypeInfo getFieldDef, restricted to the shapes the passes consult: the
schema field table plus the __typename meta field (available on every
composite parent; the __schema/__type root meta fields are not modelled, no
claim touches them). -/
def getFieldDef (sch : Schema) (parent : String) (fname : String) : Option GType :=
  if fname == "__typename" then some (.nonNull (.named "String"))
  else sch.fieldType parent fname

/-- The current type inside a field's selection set: the field definition's
declared (possibly wrapped) type, looked up on the enclosing parent type. -/
def fieldChildType (sch : Schema) (cur : Option GType) (fname : String) : Option GType :=
  (parentTypeName sch cur).bind (fun p => getFieldDef sch p fname)

/-- typeFromAST on a type condition: the named type when it exists in the
schema (all modelled kinds are output types). -/
def conditionType (sch : Schema) (c : String) : Option GType :=
  if (sch.kindOf c).isSome then some (.named c) else none

/-- TypeInfo enter(InlineFragment) without type condition: the named base of
the current type is inherited. -/
def inheritedType (cur : Option GType) : Option GType :=
  cur.map (fun t => GType.named (baseName t))

/-- The current type inside an inline fragment's selection set. -/
def fragChildType (sch : Schema) (cur : Option GType) (cond : Option String) : Option GType :=
  match cond with
  | some c => conditionType sch c
  | none => inheritedType cur

/-- isInterfaceType of graphql-js, applied to the tracked current type: true
only for a bare named type whose kind is interface (a NonNull- or
List-wrapped interface is not itself an interface type). -/
def isInterfaceType (sch : Schema) (cur : Option GType) : Bool :=
  match cur with
  | some (.named n) => sch.kindOf n == some TypeKind.interfaceTK
  | _ => false

/-- schema.getRootType(operation). -/
def rootTypeName (sch : Schema) : OperationType → Option String
  | .query => sch.queryType
  | .mutation => sch.mutationType
  | .subscription => sch.subscriptionType

/-- TypeInfo enter(OperationDefinition): the root type, when it is an object
type. -/
def operationRootType (sch : Schema) (t : OperationType) : Option GType :=
  (rootTypeName sch t).bind (fun r =>
    if sch.kindOf r == some TypeKind.objectTK then some (GType.named r) else none)

/-- The current type at a definition's top-level selection set. -/
def defnInitType (sch : Schema) : Definition → Option GType
  | .operation t _ _ _ => operationRootType sch t
  | .fragmentDefinition _ c _ _ => conditionType sch c

/-! ## Stage 1: inlineFragments (index.ts lines 44-71) -/

inductive NormError where
  | undefinedFragment (name : String)
  | fuelExhausted

/-- The fragmentMap of inlineFragments: assignment into the map means a later
fragment definition with the same name overwrites an earlier one, so lookup
returns the last matching definition (type condition and selection set). -/
def fragmentMapLookup : Document → String → Option (String × List Selection)
  | [], _ => none
  | .operation _ _ _ _ :: rest, n => fragmentMapLookup rest n
  | .fragmentDefinition nm c _ ss :: rest, n =>
    match fragmentMapLookup rest n with
    | some r => some r
    | none => if nm == n then some (c, ss) else none

/-- The filter of inlineFragments: fragment definitions are removed from the
definition list before the visit. -/
def keepNonFragmentDefinitions : Document → Document
  | [] => []
  | .operation t n dirs ss :: rest => .operation t n dirs ss :: keepNonFragmentDefinitions rest
  | .fragmentDefinition _ _ _ _ :: rest => keepNonFragmentDefinitions rest

/-- Number of fragment definitions in a document. -/
def numFragments : Document → Nat
  | [] => 0
  | .fragmentDefinition _ _ _ _ :: rest => numFragments rest + 1
  | .operation _ _ _ _ :: rest => numFragments rest

mutual
/-- The visit of inlineFragments, parametric in the action taken at a
FragmentSpread node (every other node is rebuilt around its visited
children, in document order, stopping at the first error as the thrown
exception does). -/
def expandSelection (onSpread : String → List Directive → Except NormError Selection) :
    Selection → Except NormError Selection
  | .field a n args dirs none => .ok (.field a n args dirs none)
  | .field a n args dirs (some ss) => do
    let ss' ← expandSelectionList onSpread ss
    .ok (.field a n args dirs (some ss'))
  | .inlineFragment c dirs body => do
    let b ← expandSelectionList onSpread body
    .ok (.inlineFragment c dirs b)
  | .fragmentSpread n dirs => onSpread n dirs

def expandSelectionList (onSpread : String → List Directive → Except NormError Selection) :
    List Selection → Except NormError (List Selection)
  | [] => .ok []
  | s :: rest => do
    let s' ← expandSelection onSpread s
    let rest' ← expandSelectionList onSpread rest
    .ok (s' :: rest')
end

/-- The FragmentSpread visitor of inlineFragments: an unresolvable spread
throws; a resolvable one is replaced by an inline fragment carrying the
definition's type condition and selection set and the spread's own
directives, and the visit continues into the replacement, resolving nested
spreads.  The fuel argument bounds the nesting depth of expansions (the
source recursion has no bound; on cyclic fragments it diverges by stack
overflow, modelled by fuelExhausted). -/
def expandSpreads (fragMap : String → Option (String × List Selection)) :
    Nat → List Selection → Except NormError (List Selection)
  | 0, ss =>
    expandSelectionList (fun n _ =>
      match fragMap n with
      | none => .error (.undefinedFragment n)
      | some _ => .error .fuelExhausted) ss
  | fuel+1, ss =>
    expandSelectionList (fun n dirs =>
      match fragMap n with
      | none => .error (.undefinedFragment n)
      | some fr => do
        let b ← expandSpreads fragMap fuel fr.2
        .ok (.inlineFragment (some fr.1) dirs b)) ss

/-- Expansion applied to every retained definition, in order. -/
def inlineDefinitionList (fragMap : String → Option (String × List Selection))
    (fuel : Nat) : Document → Except NormError Document
  | [] => .ok []
  | .operation t n dirs ss :: rest => do
    let ss' ← expandSpreads fragMap fuel ss
    let rest' ← inlineDefinitionList fragMap fuel rest
    .ok (.operation t n dirs ss' :: rest')
  | .fragmentDefinition nm c dirs ss :: rest => do
    let ss' ← expandSpreads fragMap fuel ss
    let rest' ← inlineDefinitionList fragMap fuel rest
    .ok (.fragmentDefinition nm c dirs ss' :: rest')

/-- inlineFragments: build the fragment map, drop fragment definitions,
replace every spread recursively.  The fuel bound numFragments + 1 covers
every acyclic expansion chain (a chain of distinct fragment names). -/
def inlineFragments (d : Document) : Except NormError Document :=
  inlineDefinitionList (fragmentMapLookup d) (numFragments d + 1) (keepNonFragmentDefinitions d)

/-! ## Stage 2: removeRedundantTypeConditions (index.ts lines 76-98) -/

mutual
/-- The InlineFragment visitor with TypeInfo: a type condition equal to the
name of the enclosing selection set's parent type is dropped; traversal is
top-down and the rewritten node's children are visited under the type the
rewritten node induces. -/
def removeRedundantCondS (sch : Schema) (cur : Option GType) : Selection → Selection
  | .field a n args dirs none => .field a n args dirs none
  | .field a n args dirs (some ss) =>
    .field a n args dirs (some (removeRedundantCondL sch (fieldChildType sch cur n) ss))
  | .inlineFragment (some c) dirs body =>
    if parentTypeName sch cur = some c then
      .inlineFragment none dirs (removeRedundantCondL sch (inheritedType cur) body)
    else
      .inlineFragment (some c) dirs (removeRedundantCondL sch (conditionType sch c) body)
  | .inlineFragment none dirs body =>
    .inlineFragment none dirs (removeRedundantCondL sch (inheritedType cur) body)
  | .fragmentSpread n dirs => .fragmentSpread n dirs

def removeRedundantCondL (sch : Schema) (cur : Option GType) : List Selection → List Selection
  | [] => []
  | s :: rest => removeRedundantCondS sch cur s :: removeRedundantCondL sch cur rest
end

def removeRedundantTypeConditions (sch : Schema) : Document → Document
  | [] => []
  | .operation t n dirs ss :: rest =>
    .operation t n dirs (removeRedundantCondL sch (operationRootType sch t) ss)
      :: removeRedundantTypeConditions sch rest
  | .fragmentDefinition nm c dirs ss :: rest =>
    .fragmentDefinition nm c dirs (removeRedundantCondL sch (conditionType sch c) ss)
      :: removeRedundantTypeConditions sch rest

/-! ## Stage 3: flattenSelections (index.ts lines 103-170) -/

def findDirective (nm : String) (dirs : List Directive) : Option Directive :=
  dirs.find? (fun d => d.name == nm)

/-- The literal-boolean if argument of a directive, when present: the first
argument named if, provided its value is a boolean literal. -/
def boolIfArg (d : Directive) : Option Bool :=
  match d.args.find? (fun a => a.name == "if") with
  | some a =>
    match a.value with
    | .boolV b => some b
    | _ => none
  | none => none

/-- The include half of the SelectionSet-leave loop (lines 148-161): reached
when there is no skip directive or the skip directive's if argument is not a
boolean literal. -/
def flattenIncludeStep (dirs : List Directive) (body : List Selection)
    (s : Selection) : List Selection :=
  match findDirective "include" dirs with
  | some d =>
    match boolIfArg d with
    | some b => if b then body else []
    | none => [s]
  | none => [s]

/-- One iteration of the SelectionSet-leave loop of flattenSelections (lines
118-165): the selections that selection s contributes to the rebuilt parent
list.  Only inline fragments without type condition are rewritten: with no
directives their body is spliced; otherwise the first skip directive with a
literal boolean if decides (true drops everything, false splices); failing
that, the first include directive with a literal boolean if decides (true
splices, false drops); in every remaining case the fragment is kept. -/
def flattenStep (s : Selection) : List Selection :=
  match s with
  | .inlineFragment none dirs body =>
    if dirs.isEmpty then body
    else
      match findDirective "skip" dirs with
      | some d =>
        match boolIfArg d with
        | some b => if b then [] else body
        | none => flattenIncludeStep dirs body (.inlineFragment none dirs body)
      | none => flattenIncludeStep dirs body (.inlineFragment none dirs body)
  | s => [s]

mutual
/-- The Field visitor (alias identical to the field name is dropped) combined
with the bottom-up SelectionSet rewrite: children are flattened first, then
each selection set is rebuilt through flattenStep. -/
def flattenS : Selection → Selection
  | .field a n args dirs none =>
    .field (if a == some n then none else a) n args dirs none
  | .field a n args dirs (some ss) =>
    .field (if a == some n then none else a) n args dirs
      (some ((flattenMap ss).flatMap flattenStep))
  | .inlineFragment c dirs body =>
    .inlineFragment c dirs ((flattenMap body).flatMap flattenStep)
  | .fragmentSpread n dirs => .fragmentSpread n dirs

def flattenMap : List Selection → List Selection
  | [] => []
  | s :: rest => flattenS s :: flattenMap rest
end

/-- A full selection set under flattenSelections. -/
def flattenL (ss : List Selection) : List Selection :=
  (flattenMap ss).flatMap flattenStep

def flattenSelections : Document → Document
  | [] => []
  | .operation t n dirs ss :: rest =>
    .operation t n dirs (flattenL ss) :: flattenSelections rest
  | .fragmentDefinition nm c dirs ss :: rest =>
    .fragmentDefinition nm c dirs (flattenL ss) :: flattenSelections rest

/-! ## Stage 4: deduplicateSelections (index.ts lines 175-223, 265-320) -/

def hasSubSelections : Selection → Bool
  | .field _ _ _ _ (some _) => true
  | .inlineFragment _ _ _ => true
  | _ => false

/-- The nested selections of a selection ((s as FieldNode).selectionSet?.
selections || []). -/
def subSelections : Selection → List Selection
  | .field _ _ _ _ (some ss) => ss
  | .inlineFragment _ _ ss => ss
  | _ => []

/-- The merge update of removeDuplicateSelections (lines 281-290): the
matched entry keeps its own shallow data and its nested selections are
extended by the incoming selection's nested selections. -/
def withAppendedSub (target s : Selection) : Selection :=
  match target with
  | .field a n args dirs (some ss) =>
    .field a n args dirs (some (ss ++ subSelections s))
  | .inlineFragment c dirs ss => .inlineFragment c dirs (ss ++ subSelections s)
  | t => t

/-- The inner j-loop of removeDuplicateSelections for one incoming selection
s: find the first equivalent entry of the output list; merge into it when it
has a nested selection set, discard s otherwise; with no equivalent entry,
append s.  The Bool is the hasEquivalent flag. -/
def mergeIntoOutput (out : List Selection) (s : Selection) : List Selection × Bool :=
  match out.findIdx? (fun s2 => selectionsAreEquivalent s s2) with
  | none => (out ++ [s], false)
  | some j =>
    match out[j]? with
    | some s2 =>
      (if hasSubSelections s2 then out.set j (withAppendedSub s2 s) else out, true)
    | none => (out, true)

def removeDuplicateSelectionsAux (acc : List Selection × Bool) :
    List Selection → List Selection × Bool
  | [] => acc
  | s :: rest =>
    let r := mergeIntoOutput acc.1 s
    removeDuplicateSelectionsAux (r.1, acc.2 || r.2) rest

/-- removeDuplicateSelections (lines 265-308): the left-to-right merge pass
over one selection list, with its hasMadeChange flag. -/
def removeDuplicateSelections (ss : List Selection) : List Selection × Bool :=
  removeDuplicateSelectionsAux ([], false) ss

/-- selectionIsLeadingRedundant (lines 310-320): deeply equal to some sibling
at a smaller index of the parent selection list. -/
def selectionIsLeadingRedundant (s : Selection) (parent : List Selection) (i : Nat) : Bool :=
  (parent.take i).any (fun p => selectionsAreEqual s p)

/-- The interface-redundancy i-loop of deduplicateSelections (lines 193-214),
from index i with k entries left to visit.  The i-th entry, when an inline
fragment, has its body filtered against the current list state; the source
assigns the filtered body into the fragment node in place, so later
iterations compare against already-filtered earlier fragments, which the
threaded state reproduces.  The Bool records whether any selection was
removed. -/
def interfacePassFrom : Nat → Nat → List Selection → List Selection × Bool
  | 0, _, st => (st, false)
  | k+1, i, st =>
    match st[i]? with
    | some (.inlineFragment c dirs body) =>
      let kept := body.filter (fun sel => !selectionIsLeadingRedundant sel st i)
      let removed := body.any (fun sel => selectionIsLeadingRedundant sel st i)
      let r := interfacePassFrom k (i+1) (st.set i (.inlineFragment c dirs kept))
      (r.1, removed || r.2)
    | _ => interfacePassFrom k (i+1) st

/-- The whole interface-redundancy pass over a selection list. -/
def interfacePass (st : List Selection) : List Selection × Bool :=
  interfacePassFrom st.length 0 st

/-- The do/while fixed-point loop of the SelectionSet visitor of
deduplicateSelections (lines 183-220): merge duplicates; on a non-interface
current type return the merge result at once; otherwise run the interface
pass and repeat while either made a change.  The source loop is unbounded;
the fuel only caps the iteration count and szL ss + 1 is proved sufficient
(the Bool result records exit through the loop condition rather than by
fuel). -/
def dedupLoop : Nat → Bool → List Selection → List Selection × Bool
  | 0, _, node => (node, false)
  | fuel+1, isIface, node =>
    let m := removeDuplicateSelections node
    if isIface then
      let p := interfacePass m.1
      if m.2 || p.2 then dedupLoop fuel isIface p.1 else (p.1, true)
    else (m.1, true)

/-- The top-down SelectionSet traversal of deduplicateSelections: fix the
current level, then visit the children of the result under the types TypeInfo
would track.  The fuel bounds the recursion depth; szL ss + 1 always
suffices since each level strictly bounds its children's size. -/
def deduplicateSelectionSets (sch : Schema) : Nat → Option GType → List Selection → List Selection
  | 0, _, ss => ss
  | fuel+1, cur, ss =>
    let ss2 := (dedupLoop (szL ss + 1) (isInterfaceType sch cur) ss).1
    ss2.map (fun s =>
      match s with
      | .field a n args dirs (some sub) =>
        .field a n args dirs
          (some (deduplicateSelectionSets sch fuel (fieldChildType sch cur n) sub))
      | .field a n args dirs none => .field a n args dirs none
      | .inlineFragment c dirs body =>
        .inlineFragment c dirs
          (deduplicateSelectionSets sch fuel (fragChildType sch cur c) body)
      | .fragmentSpread n dirs => .fragmentSpread n dirs)

def deduplicateSelections (sch : Schema) : Document → Document
  | [] => []
  | .operation t n dirs ss :: rest =>
    .operation t n dirs
      (deduplicateSelectionSets sch (szL ss + 1) (operationRootType sch t) ss)
      :: deduplicateSelections sch rest
  | .fragmentDefinition nm c dirs ss :: rest =>
    .fragmentDefinition nm c dirs
      (deduplicateSelectionSets sch (szL ss + 1) (conditionType sch c) ss)
      :: deduplicateSelections sch rest

/-! ## Stage 5: removeBlockStrings (index.ts lines 228-234) -/

mutual
/-- The StringValue visitor: every string value keeps its text and loses its
block form. -/
def removeBlockStringsV : Value → Value
  | .stringV s _ => .stringV s false
  | .listV vs => .listV (removeBlockStringsVL vs)
  | .objectV fs => .objectV (removeBlockStringsVF fs)
  | v => v

def removeBlockStringsVL : List Value → List Value
  | [] => []
  | v :: rest => removeBlockStringsV v :: removeBlockStringsVL rest

def removeBlockStringsVF : List (String × Value) → List (String × Value)
  | [] => []
  | (n, v) :: rest => (n, removeBlockStringsV v) :: removeBlockStringsVF rest
end

def removeBlockStringsArg (a : Argument) : Argument :=
  ⟨a.name, removeBlockStringsV a.value⟩

def removeBlockStringsDir (d : Directive) : Directive :=
  ⟨d.name, d.args.map removeBlockStringsArg⟩

mutual
def removeBlockStringsS : Selection → Selection
  | .field a n args dirs none =>
    .field a n (args.map removeBlockStringsArg) (dirs.map removeBlockStringsDir) none
  | .field a n args dirs (some ss) =>
    .field a n (args.map removeBlockStringsArg) (dirs.map removeBlockStringsDir)
      (some (removeBlockStringsL ss))
  | .inlineFragment c dirs body =>
    .inlineFragment c (dirs.map removeBlockStringsDir) (removeBlockStringsL body)
  | .fragmentSpread n dirs => .fragmentSpread n (dirs.map removeBlockStringsDir)

def removeBlockStringsL : List Selection → List Selection
  | [] => []
  | s :: rest => removeBlockStringsS s :: removeBlockStringsL rest
end

def removeBlockStrings : Document → Document
  | [] => []
  | .operation t n dirs ss :: rest =>
    .operation t n (dirs.map removeBlockStringsDir) (removeBlockStringsL ss)
      :: removeBlockStrings rest
  | .fragmentDefinition nm c dirs ss :: rest =>
    .fragmentDefinition nm c (dirs.map removeBlockStringsDir) (removeBlockStringsL ss)
      :: removeBlockStrings rest

/-! ## The pipeline: normalize (index.ts lines 25-39) -/

def normalize (sch : Schema) (d : Document) : Except NormError Document := do
  let d1 ← inlineFragments d
  let d2 := removeRedundantTypeConditions sch d1
  let d3 := flattenSelections d2
  let d4 := deduplicateSelections sch d3
  .ok (removeBlockStrings d4)

/-! ## normalizedPrint (index.ts lines 239-263), at the token level

The graphql Lexer is an external collaborator; the loop of normalizedPrint
consumes its token stream.  Tokens are modelled as their kind plus the source
text body.slice(token.start, token.end). -/

inductive TokenKind where
  | bang
  | dollar
  | amp
  | parenL
  | parenR
  | spread
  | colon
  | equalsTok
  | atSign
  | bracketL
  | bracketR
  | braceL
  | pipe
  | braceR
  | nameTok
  | intTok
  | floatTok
  | stringTok
  | blockStringTok
deriving DecidableEq

/-- isPunctuatorTokenKind from graphql/language/lexer: the 14 punctuator
kinds, including the spread. -/
def isPunctuatorTokenKind : TokenKind → Bool
  | .bang => true
  | .dollar => true
  | .amp => true
  | .parenL => true
  | .parenR => true
  | .spread => true
  | .colon => true
  | .equalsTok => true
  | .atSign => true
  | .bracketL => true
  | .bracketR => true
  | .braceL => true
  | .pipe => true
  | .braceR => true
  | _ => false

structure Token where
  kind : TokenKind
  text : String

/-- The while loop of normalizedPrint (lines 247-260): before emitting a
token, a single space is added exactly when the previously added token was a
non-punctuator and the current one is a non-punctuator or the spread. -/
def normalizedPrintLoop (wasLastAddedTokenNonPunctuator : Bool) : List Token → String
  | [] => ""
  | t :: rest =>
    let isNonPunctuator := !isPunctuatorTokenKind t.kind
    (if wasLastAddedTokenNonPunctuator && (isNonPunctuator || t.kind == TokenKind.spread)
      then " " else "")
      ++ t.text ++ normalizedPrintLoop isNonPunctuator rest

/-- normalizedPrint over a lexed token stream (the flag starts false). -/
def normalizedPrint (ts : List Token) : String :=
  normalizedPrintLoop false ts

/-- ShouldSeparateWithSpace as worded by the specification (spec-side
definition, for the refinement statement of claim C5). -/
def shouldSeparateWithSpace (a b : TokenKind) : Bool :=
  if b == TokenKind.spread then !isPunctuatorTokenKind a
  else !isPunctuatorTokenKind a && !isPunctuatorTokenKind b

/-- Spec-side serialization, continued after a token of kind a: each further
token text is preceded by a single space exactly when ShouldSeparateWithSpace
holds of it and its predecessor. -/
def spacedTail (a : TokenKind) : List Token → String
  | [] => ""
  | b :: rest =>
    (if shouldSeparateWithSpace a b.kind then " " else "") ++ b.text ++ spacedTail b.kind rest

/-- Spec-side serialization: the token texts in order, a single space between
adjacent tokens exactly where ShouldSeparateWithSpace holds, and nothing
else. -/
def spacedConcat : List Token → String
  | [] => ""
  | t :: rest => t.text ++ spacedTail t.kind rest

/-! ## The schema of index.test.ts, used for concrete runs -/

def testSchemaKind : String → Option TypeKind
  | "Query" => some .objectTK
  | "UserResult" => some .unionTK
  | "Profile" => some .interfaceTK
  | "Followers" => some .objectTK
  | "User" => some .objectTK
  | "Organization" => some .objectTK
  | "Error" => some .objectTK
  | "KitchenSink" => some .objectTK
  | "String" => some .scalarTK
  | "Int" => some .scalarTK
  | "Float" => some .scalarTK
  | "Boolean" => some .scalarTK
  | "ID" => some .scalarTK
  | _ => none

def testSchemaFields : String → String → Option GType
  | "Query", "profile" => some (.named "Profile")
  | "Query", "user" => some (.named "User")
  | "Query", "userResult" => some (.nonNull (.named "UserResult"))
  | "Query", "kitchenSink" => some (.named "KitchenSink")
  | "Query", "greet" => some (.named "String")
  | "Profile", "handle" => some (.named "String")
  | "Profile", "followers" => some (.named "Followers")
  | "Followers", "count" => some (.named "Int")
  | "User", "handle" => some (.named "String")
  | "User", "followers" => some (.named "Followers")
  | "User", "name" => some (.named "String")
  | "User", "birthday" => some (.named "String")
  | "User", "friends" => some (.listOf (.named "User"))
  | "Organization", "handle" => some (.named "String")
  | "Organization", "followers" => some (.named "Followers")
  | "Organization", "members" => some (.listOf (.named "User"))
  | "Error", "message" => some (.named "String")
  | "KitchenSink", "hello" => some (.named "String")
  | "KitchenSink", "world" => some (.named "String")
  | _, _ => none

def testSchema : Schema :=
  ⟨some "Query", none, none, testSchemaKind, testSchemaFields⟩

/-- A plain field with neither alias, arguments, directives nor selection
set. -/
def bareField (n : String) : Selection :=
  .field none n [] [] none

/-- A plain field with a selection set. -/
def nodeField (n : String) (ss : List Selection) : Selection :=
  .field none n [] [] (some ss)

/-- An id: 4 argument, as in the test documents. -/
def idArg4 : Argument :=
  ⟨"id", .intV "4"⟩

/-! ## Derived checkers and spec-side definitions used by the claims -/

/-- No selection of the list is equivalent (shallow) to the given earlier
selection; the comparison order matches the merge pass (later selection
first). -/
def noEquivalentIn (e : Selection) (later : List Selection) : Bool :=
  later.all (fun l => !selectionsAreEquivalent l e)

/-- No two siblings of the list are equivalent under the shallow relation. -/
def pairwiseNonEquiv : List Selection → Bool
  | [] => true
  | e :: rest => noEquivalentIn e rest && pairwiseNonEquiv rest

mutual
/-- Every selection set nested inside the selection has pairwise
non-equivalent siblings. -/
def dedupInvS : Selection → Bool
  | .field _ _ _ _ none => true
  | .field _ _ _ _ (some ss) => pairwiseNonEquiv ss && dedupInvAll ss
  | .inlineFragment _ _ ss => pairwiseNonEquiv ss && dedupInvAll ss
  | .fragmentSpread _ _ => true

def dedupInvAll : List Selection → Bool
  | [] => true
  | s :: rest => dedupInvS s && dedupInvAll rest
end

/-- The list itself and every nested selection set have pairwise
non-equivalent siblings. -/
def dedupInvL (ss : List Selection) : Bool :=
  pairwiseNonEquiv ss && dedupInvAll ss

/-- The deduplication invariant over a whole document. -/
def dedupInvDoc : Document → Bool
  | [] => true
  | .operation _ _ _ ss :: rest => dedupInvL ss && dedupInvDoc rest
  | .fragmentDefinition _ _ _ ss :: rest => dedupInvL ss && dedupInvDoc rest

mutual
/-- A fragment spread of the given name occurs somewhere in the selection. -/
def spreadOccursS (n : String) : Selection → Bool
  | .field _ _ _ _ none => false
  | .field _ _ _ _ (some ss) => spreadOccursL n ss
  | .inlineFragment _ _ ss => spreadOccursL n ss
  | .fragmentSpread m _ => m == n

def spreadOccursL (n : String) : List Selection → Bool
  | [] => false
  | s :: rest => spreadOccursS n s || spreadOccursL n rest
end

/-- A fragment spread of the given name occurs somewhere in the document
(operations and fragment definition bodies included). -/
def spreadOccursDoc (n : String) : Document → Bool
  | [] => false
  | .operation _ _ _ ss :: rest => spreadOccursL n ss || spreadOccursDoc n rest
  | .fragmentDefinition _ _ _ ss :: rest => spreadOccursL n ss || spreadOccursDoc n rest

/-- The document contains at least one fragment definition. -/
def hasFragmentDefinitions : Document → Bool
  | [] => false
  | .fragmentDefinition _ _ _ _ :: _ => true
  | .operation _ _ _ _ :: rest => hasFragmentDefinitions rest

/-- Spec-side reading of the fragment map: the type condition and selection
set of the last fragment definition with the given name in document order. -/
def specLastFragDef (d : Document) (n : String) : Option (String × List Selection) :=
  match d.reverse.find? (fun df =>
    match df with
    | .fragmentDefinition nm _ _ _ => nm == n
    | _ => false) with
  | some (.fragmentDefinition _ c _ ss) => some (c, ss)
  | _ => none

/-- Iterated interface-redundancy pass, until one pass removes nothing. -/
def interfacePassIter : Nat → List Selection → List Selection
  | 0, st => st
  | fuel+1, st =>
    let p := interfacePass st
    if p.2 then interfacePassIter fuel p.1 else p.1

/-- The state of the visited input node's selections after the SelectionSet
visitor of deduplicateSelections returns (the in-place assignment at line 211
of index.ts writes each surviving inline fragment's filtered body back into
the input's own fragment node, while the merge pass only copies).  This model
of the write-back is exact whenever the merge pass reports no change, so
every element of the iterated lists is a node of the input itself; both uses
below are under that condition. -/
def dedupVisitInputAfter (isIface : Bool) (ss : List Selection) : List Selection :=
  if isIface then interfacePassIter (szL ss + 1) ss else ss

/-! ## Concrete documents (from the repository's test suite and spec
examples) used as inputs of the claims -/

/-- skip(if: true) directive with a literal boolean argument. -/
def skipTrue : Directive := ⟨"skip", [⟨"if", .boolV true⟩]⟩

def skipFalse : Directive := ⟨"skip", [⟨"if", .boolV false⟩]⟩

def inclTrue : Directive := ⟨"include", [⟨"if", .boolV true⟩]⟩

def inclFalse : Directive := ⟨"include", [⟨"if", .boolV false⟩]⟩

/-- The bare custom directive declared by the test schema for inline
fragments. -/
def customDir : Directive := ⟨"custom", []⟩

/-- query { profile(id: 4) { followers { count } ... on User { followers {
count count } } } } — a valid document on the test schema (duplicate
identical fields are valid GraphQL) witnessing non-idempotence. -/
def docIdem : Document :=
  [.operation .query none [] [.field none "profile" [idArg4] [] (some
    [nodeField "followers" [bareField "count"],
     .inlineFragment (some "User") []
       [nodeField "followers" [bareField "count", bareField "count"]]])]]

/-- The result of one normalize run on docIdem. -/
def docIdemOnce : Document :=
  match normalize testSchema docIdem with
  | .ok d => d
  | .error _ => []

/-- The result of a second normalize run. -/
def docIdemTwice : Document :=
  match normalize testSchema docIdemOnce with
  | .ok d => d
  | .error _ => []

/-- query { profile(id: 4) { handle ... on User { handle name } } } — the
interface leading-redundancy example of the specification. -/
def docLead : Document :=
  [.operation .query none [] [.field none "profile" [idArg4] [] (some
    [bareField "handle",
     .inlineFragment (some "User") [] [bareField "handle", bareField "name"]])]]

/-- query { userResult(id: 4) { __typename ... on User { __typename name } }
} — a union-typed parent: the duplicated __typename inside the fragment must
survive. -/
def docUnion : Document :=
  [.operation .query none [] [.field none "userResult" [idArg4] [] (some
    [bareField "__typename",
     .inlineFragment (some "User") [] [bareField "__typename", bareField "name"]])]]

/-- query { user(id: 4) { handle ... on Profile { handle } } } — an
object-typed parent: the duplicated handle inside the fragment must
survive. -/
def docObj : Document :=
  [.operation .query none [] [.field none "user" [idArg4] [] (some
    [bareField "handle",
     .inlineFragment (some "Profile") [] [bareField "handle"]])]]

/-- { f { name } f { name birthday } } — the sibling-merge example of the
claim. -/
def docMerge : Document :=
  [.operation .query none []
    [nodeField "f" [bareField "name"],
     nodeField "f" [bareField "name", bareField "birthday"]]]

/-- { greet } plus an unused fragment definition whose body spreads an
undefined name. -/
def docUnusedMissingSpread : Document :=
  [.operation .query none [] [bareField "greet"],
   .fragmentDefinition "F" "User" [] [.fragmentSpread "Missing" []]]

/-- { ...F } with two fragment definitions named F; the second body selects
kitchenSink. -/
def docDupFragment : Document :=
  [.operation .query none [] [.fragmentSpread "F" []],
   .fragmentDefinition "F" "Query" [] [bareField "greet"],
   .fragmentDefinition "F" "Query" [] [bareField "kitchenSink"]]

/-- The interface-typed selection set of docLead as it reaches
deduplicateSelections: handle plus the fragment on User. -/
def exInterfaceSet : List Selection :=
  [bareField "handle",
   .inlineFragment (some "User") [] [bareField "handle", bareField "name"]]

/-! ## Relations used by the proofs -/

/-- The shallow projection of a selection: everything the shallow
equivalence relation can inspect (kind, alias, name, arguments, directives,
type condition), with the nested selection set erased. -/
def shallowKey : Selection → Selection
  | .field a n ar d _ => .field a n ar d none
  | .inlineFragment c d _ => .inlineFragment c d []
  | .fragmentSpread n d => .fragmentSpread n d

/-- Two selections agree on everything the shallow equivalence relation can
inspect; nested selection sets are unconstrained. -/
def SameShallow (s t : Selection) : Prop :=
  shallowKey s = shallowKey t

/-- The merge pass only extends nested selection sets: every output selection
comes from an input selection with the same shallow data whose nested
selections it extends at the end. -/
def MergeOrigin (inputs : List Selection) (s : Selection) : Prop :=
  ∃ s₀, s₀ ∈ inputs ∧ SameShallow s₀ s ∧ ∃ t, subSelections s = subSelections s₀ ++ t

mutual
/-- Size of a value node. -/
def szV : Value → Nat
  | .var _ => 1
  | .intV _ => 1
  | .floatV _ => 1
  | .stringV _ _ => 1
  | .boolV _ => 1
  | .nullV => 1
  | .enumV _ => 1
  | .listV vs => 1 + szVL vs
  | .objectV fs => 1 + szVF fs

def szVL : List Value → Nat
  | [] => 0
  | v :: rest => szV v + szVL rest

def szVF : List (String × Value) → Nat
  | [] => 0
  | (_, v) :: rest => szV v + szVF rest
end

/-- name plus an inline fragment without type condition carrying
skip(if: true) together with a second directive. -/
def exSkipExtra : List Selection :=
  [bareField "name", .inlineFragment none [skipTrue, customDir] [bareField "birthday"]]

/-! ## Theorems.  Supporting lemmas come first, the claim theorems follow. -/

theorem normalizedPrintLoop_spacedTail (ts : List Token) :
    ∀ a : TokenKind, normalizedPrintLoop (!isPunctuatorTokenKind a) ts = spacedTail a ts := by
  induction ts with
  | nil => intro a; rfl
  | cons b rest ih =>
    intro a
    have hcond : ((!isPunctuatorTokenKind a)
        && (!isPunctuatorTokenKind b.kind || b.kind == TokenKind.spread))
        = shouldSeparateWithSpace a b.kind := by
      cases b.kind <;> simp [isPunctuatorTokenKind, shouldSeparateWithSpace]
    simp only [normalizedPrintLoop, spacedTail, hcond, ih, String.append_assoc]

/-- C5: over any lexed token stream, the loop of normalizedPrint emits the
token texts in order, inserting exactly one space between adjacent tokens a,
b iff ShouldSeparateWithSpace(a, b) holds — for a spread b iff a is a
non-punctuator, otherwise iff both are non-punctuators — and emits nothing
else (no newlines, commas or comments appear in the output). -/
theorem normalizedPrint_eq_spacedConcat :
    ∀ ts : List Token, normalizedPrint ts = spacedConcat ts := by
  intro ts
  cases ts with
  | nil => rfl
  | cons t rest =>
    have h := normalizedPrintLoop_spacedTail rest t.kind
    simp only [normalizedPrint, normalizedPrintLoop, spacedConcat, Bool.false_and,
      if_neg Bool.false_ne_true, h, String.empty_append, String.append_assoc]

/-- C1 (code bug): normalize is not idempotent.  On the valid document
query { profile(id: 4) { followers { count } ... on User { followers { count
count } } } } over the test schema, the first run leaves followers { count }
inside the User fragment (the interface-redundancy pass compared it against
the sibling before nested deduplication had merged the duplicate count), and
the second run removes it, leaving an empty fragment body: the two outputs
differ. -/
theorem normalize_not_idempotent :
    normalize testSchema docIdem = .ok docIdemOnce ∧
    normalize testSchema docIdemOnce = .ok docIdemTwice ∧
    szDoc docIdemOnce ≠ szDoc docIdemTwice ∧ docIdemTwice ≠ docIdemOnce := by
  refine ⟨rfl, rfl, by decide, fun h => ?_⟩
  have := congrArg szDoc h
  revert this
  decide

/-- C10: in the merge pass, a selection equivalent to an earlier retained
entry that has no nested selection set is discarded entirely (nothing is
concatenated); nested selections are appended only when the earlier entry
has a nested selection set.  The concrete conjunct: a bare field x followed
by x { y } collapses to the bare x, the { y } body vanishing. -/
theorem mergeIntoOutput_drop_or_append :
    (∀ (out : List Selection) (s : Selection) (j : Nat) (s2 : Selection),
      out.findIdx? (fun c => selectionsAreEquivalent s c) = some j →
      out[j]? = some s2 → hasSubSelections s2 = false →
      mergeIntoOutput out s = (out, true)) ∧
    (∀ (out : List Selection) (s : Selection) (j : Nat) (s2 : Selection),
      out.findIdx? (fun c => selectionsAreEquivalent s c) = some j →
      out[j]? = some s2 → hasSubSelections s2 = true →
      mergeIntoOutput out s = (out.set j (withAppendedSub s2 s), true)) ∧
    removeDuplicateSelections
        [bareField "x", .field none "x" [] [] (some [bareField "y"])]
      = ([bareField "x"], true) := by
  refine ⟨?_, ?_, rfl⟩
  · intro out s j s2 h1 h2 h3
    simp [mergeIntoOutput, h1, h2, h3]
  · intro out s j s2 h1 h2 h3
    simp [mergeIntoOutput, h1, h2, h3]

theorem mergeIntoOutput_drop_or_append_witness :
    mergeIntoOutput [bareField "x"] (.field none "x" [] [] (some [bareField "y"]))
      = ([bareField "x"], true) :=
  mergeIntoOutput_drop_or_append.1 [bareField "x"]
    (.field none "x" [] [] (some [bareField "y"])) 0 (bareField "x") rfl rfl rfl

/-- C4 counterexample: an inline fragment without type condition that
carries skip(if: true) and a further directive is dropped by the flattener
together with its contents, although the claim says that with other
directives present it is left unchanged. -/
theorem flattenStep_ignores_extra_directives :
    flattenL exSkipExtra = [bareField "name"] ∧
    (flattenL exSkipExtra).length ≠ exSkipExtra.length :=
  ⟨rfl, by decide⟩

/-- C4 as amended: for a conditionless inline fragment the first skip
directive with a literal boolean if argument decides alone (true drops the
fragment and its contents, false splices the contents dropping every
directive), regardless of what other directives are present; when no skip
directive has a literal boolean if, the first include directive with a
literal boolean if decides likewise (true splices, false drops); the
fragment is kept unchanged only when neither happens (and a directive
exists); an empty directive list always splices. -/
theorem flattenStep_spec :
    (∀ dirs body, dirs = [] →
      flattenStep (.inlineFragment none dirs body) = body) ∧
    (∀ dirs body d, dirs ≠ [] → findDirective "skip" dirs = some d →
      boolIfArg d = some true →
      flattenStep (.inlineFragment none dirs body) = []) ∧
    (∀ dirs body d, dirs ≠ [] → findDirective "skip" dirs = some d →
      boolIfArg d = some false →
      flattenStep (.inlineFragment none dirs body) = body) ∧
    (∀ dirs body d b, dirs ≠ [] →
      (∀ d₀, findDirective "skip" dirs = some d₀ → boolIfArg d₀ = none) →
      findDirective "include" dirs = some d → boolIfArg d = some b →
      flattenStep (.inlineFragment none dirs body) = (if b then body else [])) ∧
    (∀ dirs body, dirs ≠ [] →
      (∀ d₀, findDirective "skip" dirs = some d₀ → boolIfArg d₀ = none) →
      (∀ d₀, findDirective "include" dirs = some d₀ → boolIfArg d₀ = none) →
      flattenStep (.inlineFragment none dirs body) = [.inlineFragment none dirs body]) := by
  refine ⟨?_, ?_, ?_, ?_, ?_⟩
  · intro dirs body h
    subst h
    rfl
  · intro dirs body d hne hfind hbool
    simp [flattenStep, List.isEmpty_iff, hne, hfind, hbool]
  · intro dirs body d hne hfind hbool
    simp [flattenStep, List.isEmpty_iff, hne, hfind, hbool]
  · intro dirs body d b hne hskip hfind hbool
    cases hs : findDirective "skip" dirs with
    | none => simp [flattenStep, List.isEmpty_iff, hne, hs, flattenIncludeStep, hfind, hbool]
    | some d₀ =>
      have := hskip d₀ hs
      simp [flattenStep, List.isEmpty_iff, hne, hs, this, flattenIncludeStep, hfind, hbool]
  · intro dirs body hne hskip hincl
    cases hs : findDirective "skip" dirs with
    | none =>
      cases hi : findDirective "include" dirs with
      | none => simp [flattenStep, List.isEmpty_iff, hne, hs, flattenIncludeStep, hi]
      | some d₀ =>
        have := hincl d₀ hi
        simp [flattenStep, List.isEmpty_iff, hne, hs, flattenIncludeStep, hi, this]
    | some d₀ =>
      have h0 := hskip d₀ hs
      cases hi : findDirective "include" dirs with
      | none => simp [flattenStep, List.isEmpty_iff, hne, hs, h0, flattenIncludeStep, hi]
      | some d₁ =>
        have h1 := hincl d₁ hi
        simp [flattenStep, List.isEmpty_iff, hne, hs, h0, flattenIncludeStep, hi, h1]

theorem flattenStep_spec_witness :
    flattenStep (.inlineFragment none [skipTrue, customDir] [bareField "birthday"]) = [] :=
  flattenStep_spec.2.1 [skipTrue, customDir] [bareField "birthday"] skipTrue
    (List.cons_ne_nil _ _) rfl rfl

theorem list_set_self {α : Type} :
    ∀ (l : List α) (i : Nat) (v : α), l[i]? = some v → l.set i v = l := by
  intro l
  induction l with
  | nil => intro i v h; simp at h
  | cons a rest ih =>
    intro i v h
    cases i with
    | zero =>
      simp at h
      simp [List.set, h]
    | succ n =>
      simp at h
      simp [List.set, ih n v h]

theorem filter_not_of_any_false {α : Type} :
    ∀ (l : List α) (p : α → Bool), l.any p = false → l.filter (fun x => !p x) = l := by
  intro l p
  induction l with
  | nil => intro _; rfl
  | cons a rest ih =>
    intro h
    simp only [List.any_cons, Bool.or_eq_false_iff] at h
    simp [List.filter, h.1, ih h.2]

theorem interfacePassFrom_no_change :
    ∀ (k i : Nat) (st : List Selection),
      (interfacePassFrom k i st).2 = false → (interfacePassFrom k i st).1 = st := by
  intro k
  induction k with
  | zero => intro i st _; rfl
  | succ k ih =>
    intro i st h
    cases hst : st[i]? with
    | none =>
      simp only [interfacePassFrom, hst] at h ⊢
      exact ih (i+1) st h
    | some s =>
      cases s with
      | field a n args dirs sub =>
        simp only [interfacePassFrom, hst] at h ⊢
        exact ih (i+1) st h
      | fragmentSpread n dirs =>
        simp only [interfacePassFrom, hst] at h ⊢
        exact ih (i+1) st h
      | inlineFragment c dirs body =>
        simp only [interfacePassFrom, hst, Bool.or_eq_false_iff] at h ⊢
        have hkept : body.filter (fun sel => !selectionIsLeadingRedundant sel st i) = body :=
          filter_not_of_any_false body _ h.1
        have hset : st.set i (.inlineFragment c dirs body) = st := list_set_self st i _ hst
        rw [hkept, hset] at h ⊢
        exact ih (i+1) st h.2

theorem interfacePass_no_change (ss : List Selection) :
    (interfacePass ss).2 = false → (interfacePass ss).1 = ss :=
  interfacePassFrom_no_change ss.length 0 ss

/-- C8 counterexample: on the interface-typed selection set of the spec
example (handle next to ... on User { handle name }, the type of the profile
field on the test schema being the interface Profile), the merge pass makes
no change, yet the visitor writes the filtered body into the input's own
fragment node: after the stage runs, the input node has lost the handle
inside the fragment, so deduplicateSelections does not leave its input
structurally unchanged. -/
theorem deduplicateSelections_mutates_input :
    (removeDuplicateSelections exInterfaceSet).2 = false ∧
    fieldChildType testSchema (operationRootType testSchema .query) "profile"
      = some (.named "Profile") ∧
    isInterfaceType testSchema (some (.named "Profile")) = true ∧
    dedupVisitInputAfter true exInterfaceSet
      = [bareField "handle", .inlineFragment (some "User") [] [bareField "name"]] ∧
    szL (dedupVisitInputAfter true exInterfaceSet) ≠ szL exInterfaceSet :=
  ⟨rfl, rfl, rfl, rfl, by decide⟩

/-- C8 as amended: the stages build their results as new trees, but
deduplicateSelections writes filtered inline-fragment bodies back into its
input's nodes whenever the interface-redundancy pass fires; the input is
left structurally unchanged at every non-interface-typed selection set, and
at interface-typed ones exactly when the redundancy pass removes nothing. -/
theorem dedupVisitInputAfter_unchanged :
    (∀ ss : List Selection, dedupVisitInputAfter false ss = ss) ∧
    (∀ ss : List Selection, (interfacePass ss).2 = false →
      dedupVisitInputAfter true ss = ss) := by
  constructor
  · intro ss; rfl
  · intro ss h
    have h1 : (interfacePass ss).1 = ss := interfacePass_no_change ss h
    simp [dedupVisitInputAfter, interfacePassIter, h, h1]

theorem dedupVisitInputAfter_unchanged_witness :
    dedupVisitInputAfter true [bareField "x"] = [bareField "x"] :=
  dedupVisitInputAfter_unchanged.2 [bareField "x"] rfl

theorem errBind {ε α β : Type} (e : ε) (f : α → Except ε β) :
    (Except.error e >>= f : Except ε β) = Except.error e := rfl

theorem okBind {ε α β : Type} (a : α) (f : α → Except ε β) :
    (Except.ok a >>= f : Except ε β) = f a := rfl

/-- Expansion only fails with errors that the spread action itself can
produce. -/
theorem expand_no_err (E : NormError) :
    ∀ k : Nat, ∀ onSpread, (∀ m dirs, onSpread m dirs ≠ .error E) →
      (∀ s, szS s ≤ k → expandSelection onSpread s ≠ .error E) ∧
      (∀ ss, szL ss ≤ k → expandSelectionList onSpread ss ≠ .error E) := by
  intro k
  induction k using Nat.strong_induction_on with
  | _ k ih =>
    intro onSpread hOn
    have hsel : ∀ s, szS s ≤ k → expandSelection onSpread s ≠ .error E := by
      intro s hs
      cases s with
      | field a n args dirs sub =>
        cases sub with
        | none => simp [expandSelection]
        | some sub =>
          have hk : szL sub < k := by simp [szS] at hs; omega
          cases h1 : expandSelectionList onSpread sub with
          | error e =>
            have hne := (ih (szL sub) hk onSpread hOn).2 sub le_rfl
            rw [h1] at hne
            simp only [expandSelection, h1, errBind]
            intro hcontra
            exact (by simpa using hne : e ≠ E) (by simpa using hcontra)
          | ok ss' => simp [expandSelection, h1, okBind]
      | inlineFragment c dirs body =>
        have hk : szL body < k := by simp [szS] at hs; omega
        cases h1 : expandSelectionList onSpread body with
        | error e =>
          have hne := (ih (szL body) hk onSpread hOn).2 body le_rfl
          rw [h1] at hne
          simp only [expandSelection, h1, errBind]
          intro hcontra
          exact (by simpa using hne : e ≠ E) (by simpa using hcontra)
        | ok ss' => simp [expandSelection, h1, okBind]
      | fragmentSpread m dirs => exact hOn m dirs
    refine ⟨hsel, ?_⟩
    intro ss
    induction ss with
    | nil => intro _; simp [expandSelectionList]
    | cons s rest ihl =>
      intro hss
      have hs : szS s ≤ k := by
        have h1 : 1 ≤ szS s := by cases s <;> (try cases ‹Option (List Selection)›) <;> simp [szS]
        simp [szL] at hss
        omega
      have hrest : szL rest ≤ k := by
        have h1 : 1 ≤ szS s := by cases s <;> (try cases ‹Option (List Selection)›) <;> simp [szS]
        simp [szL] at hss
        omega
      cases h1 : expandSelection onSpread s with
      | error e =>
        have hne := hsel s hs
        rw [h1] at hne
        simp only [expandSelectionList, h1, errBind]
        intro hcontra
        exact (by simpa using hne : e ≠ E) (by simpa using hcontra)
      | ok s' =>
        cases h2 : expandSelectionList onSpread rest with
        | error e =>
          have hne := ihl hrest
          rw [h2] at hne
          simp only [expandSelectionList, h1, okBind, h2, errBind]
          intro hcontra
          exact (by simpa using hne : e ≠ E) (by simpa using hcontra)
        | ok rest' => simp [expandSelectionList, h1, okBind, h2]

/-- An expansion error originates at some spread occurring in the traversed
selections. -/
theorem expand_err_source (E : NormError) :
    ∀ k : Nat, ∀ onSpread,
      (∀ s, szS s ≤ k → expandSelection onSpread s = .error E →
        ∃ m dirs, spreadOccursS m s = true ∧ onSpread m dirs = .error E) ∧
      (∀ ss, szL ss ≤ k → expandSelectionList onSpread ss = .error E →
        ∃ m dirs, spreadOccursL m ss = true ∧ onSpread m dirs = .error E) := by
  intro k
  induction k using Nat.strong_induction_on with
  | _ k ih =>
    intro onSpread
    have hsel : ∀ s, szS s ≤ k → expandSelection onSpread s = .error E →
        ∃ m dirs, spreadOccursS m s = true ∧ onSpread m dirs = .error E := by
      intro s hs herr
      cases s with
      | field a n args dirs sub =>
        cases sub with
        | none => simp [expandSelection] at herr
        | some sub =>
          have hk : szL sub < k := by simp [szS] at hs; omega
          cases h1 : expandSelectionList onSpread sub with
          | error e =>
            rw [expandSelection, h1, errBind] at herr
            have he : e = E := by simpa using herr
            subst he
            obtain ⟨m, dirs', hocc, hOn⟩ := (ih (szL sub) hk onSpread).2 sub le_rfl h1
            exact ⟨m, dirs', by simpa [spreadOccursS] using hocc, hOn⟩
          | ok ss' => rw [expandSelection, h1, okBind] at herr; simp at herr
      | inlineFragment c dirs body =>
        have hk : szL body < k := by simp [szS] at hs; omega
        cases h1 : expandSelectionList onSpread body with
        | error e =>
          rw [expandSelection, h1, errBind] at herr
          have he : e = E := by simpa using herr
          subst he
          obtain ⟨m, dirs', hocc, hOn⟩ := (ih (szL body) hk onSpread).2 body le_rfl h1
          exact ⟨m, dirs', by simpa [spreadOccursS] using hocc, hOn⟩
        | ok ss' => rw [expandSelection, h1, okBind] at herr; simp at herr
      | fragmentSpread m dirs =>
        exact ⟨m, dirs, by simp [spreadOccursS], herr⟩
    refine ⟨hsel, ?_⟩
    intro ss
    induction ss with
    | nil => intro _ herr; simp [expandSelectionList] at herr
    | cons s rest ihl =>
      intro hss herr
      have h1s : 1 ≤ szS s := by
        cases s <;> (try cases ‹Option (List Selection)›) <;> simp [szS]
      have hs : szS s ≤ k := by simp [szL] at hss; omega
      have hrest : szL rest ≤ k := by simp [szL] at hss; omega
      cases h1 : expandSelection onSpread s with
      | error e =>
        rw [expandSelectionList, h1, errBind] at herr
        have he : e = E := by simpa using herr
        subst he
        obtain ⟨m, dirs', hocc, hOn⟩ := hsel s hs h1
        exact ⟨m, dirs', by simp [spreadOccursL, hocc], hOn⟩
      | ok s' =>
        cases h2 : expandSelectionList onSpread rest with
        | error e =>
          rw [expandSelectionList, h1, okBind, h2, errBind] at herr
          have he : e = E := by simpa using herr
          subst he
          obtain ⟨m, dirs', hocc, hOn⟩ := ihl hrest h2
          exact ⟨m, dirs', by simp [spreadOccursL, hocc], hOn⟩
        | ok rest' =>
          rw [expandSelectionList, h1, okBind, h2, okBind] at herr
          simp at herr

/-- When a fragment name resolves in the map, no expansion ever fails with
UndefinedFragment of that name. -/
theorem expandSpreads_no_undefined (fragMap : String → Option (String × List Selection))
    (n : String) (hn : (fragMap n).isSome = true) :
    ∀ fuel ss, expandSpreads fragMap fuel ss ≠ .error (.undefinedFragment n) := by
  intro fuel
  induction fuel with
  | zero =>
    intro ss
    simp only [expandSpreads]
    apply (expand_no_err _ (szL ss) _ ?_).2 ss le_rfl
    intro m dirs
    cases hm : fragMap m with
    | none =>
      simp only [hm]
      intro hcontra
      have hmn : m = n := by simpa using hcontra
      rw [← hmn] at hn
      rw [hm] at hn
      simp at hn
    | some fr => simp [hm]
  | succ fuel ih =>
    intro ss
    simp only [expandSpreads]
    apply (expand_no_err _ (szL ss) _ ?_).2 ss le_rfl
    intro m dirs
    cases hm : fragMap m with
    | none =>
      simp only [hm]
      intro hcontra
      have hmn : m = n := by simpa using hcontra
      rw [← hmn] at hn
      rw [hm] at hn
      simp at hn
    | some fr =>
      simp only [hm]
      cases hb : expandSpreads fragMap fuel fr.2 with
      | error e =>
        rw [errBind]
        intro hcontra
        have he : e = .undefinedFragment n := by simpa using hcontra
        have hne := ih fr.2
        rw [hb, he] at hne
        exact hne rfl
      | ok b => rw [okBind]; simp

/-- An UndefinedFragment error of spread expansion names an unresolvable name
spread either in the traversed selections or in some fragment body reachable
through the map. -/
theorem expandSpreads_err_source (fragMap : String → Option (String × List Selection))
    (n : String) :
    ∀ fuel ss, expandSpreads fragMap fuel ss = .error (.undefinedFragment n) →
      fragMap n = none ∧
      (spreadOccursL n ss = true ∨
        ∃ m c body, fragMap m = some (c, body) ∧ spreadOccursL n body = true) := by
  intro fuel
  induction fuel with
  | zero =>
    intro ss h
    simp only [expandSpreads] at h
    obtain ⟨m, dirs, hocc, hOn⟩ := (expand_err_source _ (szL ss) _).2 ss le_rfl h
    cases hm : fragMap m with
    | none =>
      rw [hm] at hOn
      have hmn : m = n := by simpa using hOn
      subst hmn
      exact ⟨hm, Or.inl hocc⟩
    | some fr => rw [hm] at hOn; simp at hOn
  | succ fuel ih =>
    intro ss h
    simp only [expandSpreads] at h
    obtain ⟨m, dirs, hocc, hOn⟩ := (expand_err_source _ (szL ss) _).2 ss le_rfl h
    cases hm : fragMap m with
    | none =>
      rw [hm] at hOn
      have hmn : m = n := by simpa using hOn
      subst hmn
      exact ⟨hm, Or.inl hocc⟩
    | some fr =>
      simp only [hm] at hOn
      cases hb : expandSpreads fragMap fuel fr.2 with
      | error e =>
        rw [hb, errBind] at hOn
        have he : e = .undefinedFragment n := by simpa using hOn
        rw [he] at hb
        obtain ⟨h1, h2⟩ := ih fr.2 hb
        refine ⟨h1, Or.inr ?_⟩
        cases h2 with
        | inl hocc2 => exact ⟨m, fr.1, fr.2, by simp [hm], hocc2⟩
        | inr h3 => exact h3
      | ok b => rw [hb, okBind] at hOn; simp at hOn

/-- A fragment body delivered by the map is the body of a fragment definition
of the document, so spreads in it occur in the document. -/
theorem fragmentMapLookup_body_occurs :
    ∀ (d : Document) (m c : String) (body : List Selection) (n : String),
      fragmentMapLookup d m = some (c, body) → spreadOccursL n body = true →
      spreadOccursDoc n d = true := by
  intro d
  induction d with
  | nil => intro m c body n h _; simp [fragmentMapLookup] at h
  | cons df rest ih =>
    intro m c body n h hocc
    cases df with
    | operation t nm dirs ss =>
      simp only [fragmentMapLookup] at h
      simp [spreadOccursDoc, ih m c body n h hocc]
    | fragmentDefinition nm c2 dirs ss =>
      simp only [fragmentMapLookup] at h
      cases hr : fragmentMapLookup rest m with
      | some r =>
        rw [hr] at h
        simp only [Option.some.injEq] at h
        rw [h] at hr
        simp [spreadOccursDoc, ih m c body n hr hocc]
      | none =>
        rw [hr] at h
        cases hnm : nm == m with
        | false => rw [hnm] at h; simp at h
        | true =>
          rw [hnm] at h
          simp only [if_true] at h
          have hc : c2 = c ∧ ss = body := by simpa using h
          rw [hc.2]
          simp [spreadOccursDoc, hocc]

theorem spreadOccursDoc_keep :
    ∀ (d : Document) (n : String),
      spreadOccursDoc n (keepNonFragmentDefinitions d) = true → spreadOccursDoc n d = true := by
  intro d n
  induction d with
  | nil => intro h; exact h
  | cons df rest ih =>
    cases df with
    | operation t nm dirs ss =>
      intro h
      simp only [keepNonFragmentDefinitions, spreadOccursDoc, Bool.or_eq_true] at h ⊢
      cases h with
      | inl h1 => exact Or.inl h1
      | inr h2 => exact Or.inr (ih h2)
    | fragmentDefinition nm c dirs ss =>
      intro h
      simp only [keepNonFragmentDefinitions] at h
      simp only [spreadOccursDoc, Bool.or_eq_true]
      exact Or.inr (ih h)

/-- An UndefinedFragment error of the definition-list walk comes from some
walked definition's selections or a fragment body reachable through the
map. -/
theorem inlineDefinitionList_err_source :
    ∀ (ds : Document) (fragMap : String → Option (String × List Selection)) (fuel : Nat)
      (n : String),
      inlineDefinitionList fragMap fuel ds = .error (.undefinedFragment n) →
      fragMap n = none ∧
      (spreadOccursDoc n ds = true ∨
        ∃ m c body, fragMap m = some (c, body) ∧ spreadOccursL n body = true) := by
  intro ds
  induction ds with
  | nil => intro fragMap fuel n h; simp [inlineDefinitionList] at h
  | cons df rest ih =>
    intro fragMap fuel n h
    cases df with
    | operation t nm dirs ss =>
      rw [inlineDefinitionList] at h
      cases h1 : expandSpreads fragMap fuel ss with
      | error e =>
        rw [h1, errBind] at h
        have he : e = .undefinedFragment n := by simpa using h
        rw [he] at h1
        obtain ⟨ha, hb⟩ := expandSpreads_err_source fragMap n fuel ss h1
        refine ⟨ha, ?_⟩
        cases hb with
        | inl hocc => exact Or.inl (by simp [spreadOccursDoc, hocc])
        | inr hbody => exact Or.inr hbody
      | ok ss' =>
        rw [h1, okBind] at h
        cases h2 : inlineDefinitionList fragMap fuel rest with
        | error e =>
          rw [h2, errBind] at h
          have he : e = .undefinedFragment n := by simpa using h
          rw [he] at h2
          obtain ⟨ha, hb⟩ := ih fragMap fuel n h2
          refine ⟨ha, ?_⟩
          cases hb with
          | inl hocc => exact Or.inl (by simp [spreadOccursDoc, hocc])
          | inr hbody => exact Or.inr hbody
        | ok rest' => rw [h2, okBind] at h; simp at h
    | fragmentDefinition nm c dirs ss =>
      rw [inlineDefinitionList] at h
      cases h1 : expandSpreads fragMap fuel ss with
      | error e =>
        rw [h1, errBind] at h
        have he : e = .undefinedFragment n := by simpa using h
        rw [he] at h1
        obtain ⟨ha, hb⟩ := expandSpreads_err_source fragMap n fuel ss h1
        refine ⟨ha, ?_⟩
        cases hb with
        | inl hocc => exact Or.inl (by simp [spreadOccursDoc, hocc])
        | inr hbody => exact Or.inr hbody
      | ok ss' =>
        rw [h1, okBind] at h
        cases h2 : inlineDefinitionList fragMap fuel rest with
        | error e =>
          rw [h2, errBind] at h
          have he : e = .undefinedFragment n := by simpa using h
          rw [he] at h2
          obtain ⟨ha, hb⟩ := ih fragMap fuel n h2
          refine ⟨ha, ?_⟩
          cases hb with
          | inl hocc => exact Or.inl (by simp [spreadOccursDoc, hocc])
          | inr hbody => exact Or.inr hbody
        | ok rest' => rw [h2, okBind] at h; simp at h

/-- An UndefinedFragment error of inlineFragments names a spread that occurs
in the document and is absent from its fragment definitions. -/
theorem inlineFragments_err_source (d : Document) (n : String) :
    inlineFragments d = .error (.undefinedFragment n) →
    fragmentMapLookup d n = none ∧ spreadOccursDoc n d = true := by
  intro h
  rw [inlineFragments] at h
  obtain ⟨ha, hb⟩ := inlineDefinitionList_err_source _ _ _ n h
  refine ⟨ha, ?_⟩
  cases hb with
  | inl hocc => exact spreadOccursDoc_keep d n hocc
  | inr hbody =>
    obtain ⟨m, c, body, hm, hocc⟩ := hbody
    exact fragmentMapLookup_body_occurs d m c body n hm hocc

/-- The pipeline fails exactly when inlining fails: every later stage is
total, and the error is passed through unchanged with no partial output. -/
theorem normalize_error_iff (sch : Schema) (d : Document) (e : NormError) :
    normalize sch d = .error e ↔ inlineFragments d = .error e := by
  constructor
  · intro h
    cases h1 : inlineFragments d with
    | error e' =>
      rw [normalize, h1, errBind] at h
      have : e' = e := by simpa using h
      rw [← this]
    | ok d1 => rw [normalize, h1, okBind] at h; simp at h
  · intro h
    rw [normalize, h, errBind]

theorem keep_no_fragdefs :
    ∀ d : Document, hasFragmentDefinitions (keepNonFragmentDefinitions d) = false := by
  intro d
  induction d with
  | nil => rfl
  | cons df rest ih =>
    cases df with
    | operation t nm dirs ss => simpa [keepNonFragmentDefinitions, hasFragmentDefinitions] using ih
    | fragmentDefinition nm c dirs ss => simpa [keepNonFragmentDefinitions] using ih

theorem inlineDefinitionList_no_fragdefs :
    ∀ (ds : Document) (fragMap : String → Option (String × List Selection)) (fuel : Nat)
      (out : Document),
      hasFragmentDefinitions ds = false → inlineDefinitionList fragMap fuel ds = .ok out →
      hasFragmentDefinitions out = false := by
  intro ds
  induction ds with
  | nil =>
    intro fragMap fuel out _ h
    have : out = [] := by simpa [inlineDefinitionList] using h.symm
    rw [this]
    rfl
  | cons df rest ih =>
    intro fragMap fuel out hfd h
    cases df with
    | operation t nm dirs ss =>
      rw [inlineDefinitionList] at h
      cases h1 : expandSpreads fragMap fuel ss with
      | error e => rw [h1, errBind] at h; simp at h
      | ok ss' =>
        rw [h1, okBind] at h
        cases h2 : inlineDefinitionList fragMap fuel rest with
        | error e => rw [h2, errBind] at h; simp at h
        | ok rest' =>
          rw [h2, okBind] at h
          have hout : out = .operation t nm dirs ss' :: rest' := by simpa using h.symm
          rw [hout]
          simp only [hasFragmentDefinitions]
          exact ih fragMap fuel rest' (by simpa [hasFragmentDefinitions] using hfd) h2
    | fragmentDefinition nm c dirs ss => simp [hasFragmentDefinitions] at hfd

theorem inlineFragments_no_fragdefs (d out : Document) :
    inlineFragments d = .ok out → hasFragmentDefinitions out = false := by
  intro h
  rw [inlineFragments] at h
  exact inlineDefinitionList_no_fragdefs _ _ _ out (keep_no_fragdefs d) h

/-- The overwriting fragment map of the source equals the last matching
fragment definition of the document. -/
theorem fragmentMapLookup_eq_specLast :
    ∀ (d : Document) (n : String), fragmentMapLookup d n = specLastFragDef d n := by
  intro d
  induction d with
  | nil => intro n; rfl
  | cons df rest ih =>
    intro n
    cases df with
    | operation t nm dirs ss =>
      have hno : List.find? (fun df =>
          match df with
          | .fragmentDefinition nm _ _ _ => nm == n
          | _ => false) [Definition.operation t nm dirs ss] = none := rfl
      simp only [fragmentMapLookup, specLastFragDef, List.reverse_cons, List.find?_append,
        hno, Option.or_none]
      exact ih n
    | fragmentDefinition nm c dirs ss =>
      simp only [fragmentMapLookup, specLastFragDef, List.reverse_cons, List.find?_append]
      cases hf : List.find? (fun df =>
          match df with
          | .fragmentDefinition nm _ _ _ => nm == n
          | _ => false) rest.reverse with
      | some df =>
        have hp := List.find?_some hf
        cases df with
        | operation _ _ _ _ => simp at hp
        | fragmentDefinition nm' c' dirs' ss' =>
          have hrest : fragmentMapLookup rest n = some (c', ss') := by
            rw [ih n]
            simp [specLastFragDef, hf]
          simp [hrest, Option.or]
      | none =>
        have hrest : fragmentMapLookup rest n = none := by
          rw [ih n]
          simp [specLastFragDef, hf]
        rw [hrest]
        cases hnm : nm == n with
        | true => simp [Option.or, List.find?, hnm]
        | false => simp [Option.or, List.find?, hnm]

/-- C6 counterexample: a spread of the undefined name Missing occurs in the
document (inside an unused fragment definition), yet normalize succeeds,
because fragment definitions are removed from the definition list before the
visit and their bodies are only traversed where the fragment is spread.  The
claimed equivalence fails in the only-if direction. -/
theorem normalize_ok_despite_missing_spread :
    spreadOccursDoc "Missing" docUnusedMissingSpread = true ∧
    fragmentMapLookup docUnusedMissingSpread "Missing" = none ∧
    normalize testSchema docUnusedMissingSpread
      = .ok [.operation .query none [] [bareField "greet"]] :=
  ⟨rfl, rfl, rfl⟩

/-- C6 as amended: normalize fails exactly when inlining fails, the error is
propagated unchanged with no partial output; an UndefinedFragment(n) error
implies that a spread of n occurs in the document and n is absent from the
fragment map (the traversal reaches only operations and the bodies of
fragments actually spread, so unused fragment bodies never raise); and when
every spread name occurring anywhere in the document resolves, no
UndefinedFragment error is ever raised (on cyclic fragment chains the source
diverges instead, modelled by the distinct fuelExhausted outcome). -/
theorem normalize_undefinedFragment_spec :
    (∀ (sch : Schema) (d : Document) (e : NormError),
      normalize sch d = .error e ↔ inlineFragments d = .error e) ∧
    (∀ (d : Document) (n : String),
      inlineFragments d = .error (.undefinedFragment n) →
      fragmentMapLookup d n = none ∧ spreadOccursDoc n d = true) ∧
    (∀ (d : Document) (n : String),
      (∀ m, spreadOccursDoc m d = true → (fragmentMapLookup d m).isSome = true) →
      inlineFragments d ≠ .error (.undefinedFragment n)) := by
  refine ⟨normalize_error_iff, inlineFragments_err_source, ?_⟩
  intro d n hres hcontra
  obtain ⟨ha, hb⟩ := inlineFragments_err_source d n hcontra
  have := hres n hb
  rw [ha] at this
  simp at this

theorem normalize_undefinedFragment_spec_witness :
    inlineFragments docMerge ≠ .error (.undefinedFragment "F") :=
  normalize_undefinedFragment_spec.2.2 docMerge "F" (fun _ h => nomatch h)

/-- C9: with duplicate fragment definitions, the overwriting map resolves
every spread of the name to the last definition in document order, no
UndefinedFragment is raised for a name the map resolves, and all fragment
definitions (duplicates included) are removed from the output.  The concrete
conjunct: { ...F } with two definitions of F resolves to the second body
(kitchenSink), fully normalized. -/
theorem inlineFragments_duplicate_names :
    (∀ (d : Document) (n : String), fragmentMapLookup d n = specLastFragDef d n) ∧
    (∀ (d out : Document), inlineFragments d = .ok out →
      hasFragmentDefinitions out = false) ∧
    (∀ (d : Document) (n : String), (fragmentMapLookup d n).isSome = true →
      inlineFragments d ≠ .error (.undefinedFragment n)) ∧
    normalize testSchema docDupFragment
      = .ok [.operation .query none [] [bareField "kitchenSink"]] := by
  refine ⟨fragmentMapLookup_eq_specLast, inlineFragments_no_fragdefs, ?_, rfl⟩
  intro d n hsome hcontra
  obtain ⟨ha, _⟩ := inlineFragments_err_source d n hcontra
  rw [ha] at hsome
  simp at hsome

theorem inlineFragments_duplicate_names_witness :
    fragmentMapLookup docDupFragment "F" = specLastFragDef docDupFragment "F" ∧
    inlineFragments docDupFragment ≠ .error (.undefinedFragment "F") :=
  ⟨inlineFragments_duplicate_names.1 docDupFragment "F",
   inlineFragments_duplicate_names.2.2.1 docDupFragment "F" rfl⟩


theorem szS_pos : ∀ s : Selection, 1 ≤ szS s := by
  intro s
  cases s <;> (try cases ‹Option (List Selection)›) <;> simp [szS]

theorem szS_eq_sub : ∀ s : Selection, szS s = 1 + szL (subSelections s) := by
  intro s
  cases s with
  | field a n args dirs sub => cases sub <;> simp [szS, subSelections, szL]
  | inlineFragment c dirs body => simp [szS, subSelections]
  | fragmentSpread n dirs => simp [szS, subSelections, szL]

theorem szL_append : ∀ a b : List Selection, szL (a ++ b) = szL a + szL b := by
  intro a b
  induction a with
  | nil => simp [szL]
  | cons s rest ih => simp [szL, ih]; omega

theorem szL_set : ∀ (l : List Selection) (i : Nat) (v w : Selection),
    l[i]? = some w → szL (l.set i v) + szS w = szL l + szS v := by
  intro l
  induction l with
  | nil => intro i v w h; simp at h
  | cons a rest ih =>
    intro i v w h
    cases i with
    | zero =>
      simp at h
      subst h
      simp [List.set, szL]
      omega
    | succ n =>
      simp at h
      simp only [List.set, szL]
      have := ih n v w h
      omega

theorem szS_withAppendedSub (t s : Selection) (h : hasSubSelections t = true) :
    szS (withAppendedSub t s) = szS t + szL (subSelections s) := by
  cases t with
  | field a n args dirs sub =>
    cases sub with
    | none => simp [hasSubSelections] at h
    | some ss => simp [withAppendedSub, szS, szL_append]; omega
  | inlineFragment c dirs ss => simp [withAppendedSub, szS, szL_append]; omega
  | fragmentSpread n dirs => simp [hasSubSelections] at h

theorem mergeIntoOutput_no_merge (out : List Selection) (s : Selection) :
    (mergeIntoOutput out s).2 = false → (mergeIntoOutput out s).1 = out ++ [s] := by
  intro h
  rw [mergeIntoOutput] at h ⊢
  cases hf : out.findIdx? (fun s2 => selectionsAreEquivalent s s2) with
  | none => simp only [hf]
  | some j =>
    simp only [hf] at h
    cases hg : out[j]? with
    | none => simp only [hg] at h; simp at h
    | some s2 => simp only [hg] at h; simp at h

theorem mergeIntoOutput_merge_size (out : List Selection) (s : Selection) :
    (mergeIntoOutput out s).2 = true →
    szL (mergeIntoOutput out s).1 + 1 ≤ szL out + szS s := by
  intro h
  rw [mergeIntoOutput] at h ⊢
  cases hf : out.findIdx? (fun s2 => selectionsAreEquivalent s s2) with
  | none => simp only [hf] at h; simp at h
  | some j =>
    simp only [hf]
    cases hg : out[j]? with
    | none =>
      simp only [hg]
      have := szS_pos s
      simp
      omega
    | some s2 =>
      simp only [hg]
      cases hs : hasSubSelections s2 with
      | false =>
        have := szS_pos s
        simp [hs]
        omega
      | true =>
        have h1 := szL_set out j (withAppendedSub s2 s) s2 hg
        have h2 := szS_withAppendedSub s2 s hs
        have h3 := szS_eq_sub s
        simp [hs]
        omega


theorem rds_aux_step (l : List Selection) (b : Bool) (s : Selection) (rest : List Selection) :
    removeDuplicateSelectionsAux (l, b) (s :: rest)
      = removeDuplicateSelectionsAux
          ((mergeIntoOutput l s).1, b || (mergeIntoOutput l s).2) rest := rfl

theorem rds_aux_size : ∀ (rest l : List Selection) (b : Bool),
    szL (removeDuplicateSelectionsAux (l, b) rest).1
      + (removeDuplicateSelectionsAux (l, b) rest).2.toNat
    ≤ szL l + szL rest + b.toNat := by
  intro rest
  induction rest with
  | nil => intro l b; simp [removeDuplicateSelectionsAux, szL]
  | cons s rest' ih =>
    intro l b
    rw [rds_aux_step]
    have h4 : szL (s :: rest') = szS s + szL rest' := rfl
    cases hr : (mergeIntoOutput l s).2 with
    | false =>
      have h1 := mergeIntoOutput_no_merge l s hr
      rw [h1, Bool.or_false]
      have h2 := ih (l ++ [s]) b
      have h3 : szL (l ++ [s]) = szL l + szS s := by rw [szL_append]; simp [szL]
      omega
    | true =>
      rw [Bool.or_true]
      have h1 := mergeIntoOutput_merge_size l s hr
      have h2 := ih (mergeIntoOutput l s).1 true
      have h6 : (true : Bool).toNat = 1 := rfl
      have h7 : b.toNat ≤ 1 := by cases b <;> simp
      omega

theorem removeDuplicateSelections_size (ss : List Selection) :
    szL (removeDuplicateSelections ss).1 + (removeDuplicateSelections ss).2.toNat ≤ szL ss := by
  have := rds_aux_size ss [] false
  simpa [removeDuplicateSelections, szL] using this

theorem rds_aux_flag_true : ∀ (rest l : List Selection),
    (removeDuplicateSelectionsAux (l, true) rest).2 = true := by
  intro rest
  induction rest with
  | nil => intro l; rfl
  | cons s rest' ih =>
    intro l
    rw [rds_aux_step, Bool.true_or]
    exact ih (mergeIntoOutput l s).1

theorem rds_aux_no_change : ∀ (rest l : List Selection) (b : Bool),
    (removeDuplicateSelectionsAux (l, b) rest).2 = false →
    (removeDuplicateSelectionsAux (l, b) rest).1 = l ++ rest := by
  intro rest
  induction rest with
  | nil => intro l b _; simp [removeDuplicateSelectionsAux]
  | cons s rest' ih =>
    intro l b h
    rw [rds_aux_step] at h ⊢
    cases hr : (mergeIntoOutput l s).2 with
    | true =>
      rw [hr, Bool.or_true] at h
      rw [rds_aux_flag_true rest' (mergeIntoOutput l s).1] at h
      exact absurd h (by simp)
    | false =>
      rw [hr, Bool.or_false] at h
      rw [Bool.or_false]
      have h1 := mergeIntoOutput_no_merge l s hr
      rw [h1] at h ⊢
      have h2 := ih (l ++ [s]) b h
      rw [h2]
      simp

theorem removeDuplicateSelections_no_change (ss : List Selection) :
    (removeDuplicateSelections ss).2 = false → (removeDuplicateSelections ss).1 = ss := by
  intro h
  have := rds_aux_no_change ss [] false h
  simpa [removeDuplicateSelections] using this

theorem szL_filter_le (q : Selection → Bool) :
    ∀ l : List Selection, szL (l.filter q) ≤ szL l := by
  intro l
  induction l with
  | nil => simp [szL]
  | cons a rest ih =>
    cases hq : q a with
    | true => simpa [List.filter, hq, szL] using ih
    | false =>
      simp only [List.filter, hq]
      have := szS_pos a
      simp only [szL]
      omega

theorem szL_filter_lt (p : Selection → Bool) :
    ∀ l : List Selection, l.any p = true →
      szL (l.filter (fun x => !p x)) + 1 ≤ szL l := by
  intro l
  induction l with
  | nil => intro h; simp at h
  | cons a rest ih =>
    intro h
    simp only [List.any_cons, Bool.or_eq_true] at h
    cases hp : p a with
    | true =>
      simp only [List.filter, hp, Bool.not_true]
      have h1 := szL_filter_le (fun x => !p x) rest
      have h2 := szS_pos a
      simp only [szL]
      omega
    | false =>
      simp only [List.filter, hp, Bool.not_false]
      have h1 : rest.any p = true := by
        cases h with
        | inl h2 => rw [hp] at h2; exact absurd h2 (by simp)
        | inr h2 => exact h2
      have := ih h1
      simp only [szL]
      omega


theorem interfacePassFrom_size :
    ∀ (k i : Nat) (st : List Selection),
      szL (interfacePassFrom k i st).1 + (interfacePassFrom k i st).2.toNat ≤ szL st := by
  intro k
  induction k with
  | zero => intro i st; simp [interfacePassFrom]
  | succ k ih =>
    intro i st
    cases hst : st[i]? with
    | none => simpa [interfacePassFrom, hst] using ih (i+1) st
    | some s =>
      cases s with
      | field a n args dirs sub => simpa [interfacePassFrom, hst] using ih (i+1) st
      | fragmentSpread n dirs => simpa [interfacePassFrom, hst] using ih (i+1) st
      | inlineFragment c dirs body =>
        simp only [interfacePassFrom, hst]
        cases hrem : body.any (fun sel => selectionIsLeadingRedundant sel st i) with
        | false =>
          have hkept : body.filter (fun sel => !selectionIsLeadingRedundant sel st i) = body :=
            filter_not_of_any_false body _ hrem
          have hset : st.set i (.inlineFragment c dirs body) = st := list_set_self st i _ hst
          rw [hkept, hset]
          simpa using ih (i+1) st
        | true =>
          have hkept : szL (body.filter (fun sel => !selectionIsLeadingRedundant sel st i)) + 1
              ≤ szL body :=
            szL_filter_lt (fun sel => selectionIsLeadingRedundant sel st i) body hrem
          have hset := szL_set st i
            (.inlineFragment c dirs
              (body.filter (fun sel => !selectionIsLeadingRedundant sel st i)))
            (.inlineFragment c dirs body) hst
          have hrec := ih (i+1)
            (st.set i (.inlineFragment c dirs
              (body.filter (fun sel => !selectionIsLeadingRedundant sel st i))))
          have hsz1 : szS (Selection.inlineFragment c dirs body) = 1 + szL body := rfl
          have hsz2 : szS (Selection.inlineFragment c dirs
              (body.filter (fun sel => !selectionIsLeadingRedundant sel st i)))
            = 1 + szL (body.filter (fun sel => !selectionIsLeadingRedundant sel st i)) := rfl
          simp only [Bool.true_or, Bool.toNat_true]
          have htn : (interfacePassFrom k (i+1)
            (st.set i (.inlineFragment c dirs
              (body.filter (fun sel => !selectionIsLeadingRedundant sel st i))))).2.toNat ≤ 1 := by
            cases (interfacePassFrom k (i+1) _).2 <;> simp
          omega

theorem interfacePass_size (ss : List Selection) :
    szL (interfacePass ss).1 + (interfacePass ss).2.toNat ≤ szL ss :=
  interfacePassFrom_size ss.length 0 ss

theorem dedupLoop_succ_false (f : Nat) (ss : List Selection) :
    dedupLoop (f+1) false ss = ((removeDuplicateSelections ss).1, true) := by
  rw [dedupLoop]
  simp

theorem dedupLoop_succ_true (f : Nat) (ss : List Selection) :
    dedupLoop (f+1) true ss =
      (if (removeDuplicateSelections ss).2
          || (interfacePass (removeDuplicateSelections ss).1).2
        then dedupLoop f true (interfacePass (removeDuplicateSelections ss).1).1
        else ((interfacePass (removeDuplicateSelections ss).1).1, true)) := by
  rw [dedupLoop]
  simp

theorem dedupLoop_size : ∀ (f : Nat) (b : Bool) (ss : List Selection),
    szL (dedupLoop f b ss).1 ≤ szL ss := by
  intro f
  induction f with
  | zero => intro b ss; simp [dedupLoop]
  | succ f ih =>
    intro b ss
    have hm := removeDuplicateSelections_size ss
    cases b with
    | false =>
      rw [dedupLoop_succ_false]
      have h0 : ((removeDuplicateSelections ss).1, true).1
          = (removeDuplicateSelections ss).1 := rfl
      rw [h0]
      omega
    | true =>
      rw [dedupLoop_succ_true]
      have hp := interfacePass_size (removeDuplicateSelections ss).1
      cases hc : ((removeDuplicateSelections ss).2
          || (interfacePass (removeDuplicateSelections ss).1).2) with
      | false =>
        rw [if_neg (by simp)]
        have h0 : ((interfacePass (removeDuplicateSelections ss).1).1, true).1
            = (interfacePass (removeDuplicateSelections ss).1).1 := rfl
        rw [h0]
        omega
      | true =>
        rw [if_pos rfl]
        have := ih true (interfacePass (removeDuplicateSelections ss).1).1
        omega

theorem dedupLoop_completes : ∀ (f : Nat) (b : Bool) (ss : List Selection),
    szL ss < f → (dedupLoop f b ss).2 = true := by
  intro f
  induction f with
  | zero => intro b ss h; omega
  | succ f ih =>
    intro b ss h
    cases b with
    | false => rw [dedupLoop_succ_false]
    | true =>
      rw [dedupLoop_succ_true]
      have hm := removeDuplicateSelections_size ss
      have hp := interfacePass_size (removeDuplicateSelections ss).1
      cases hc : ((removeDuplicateSelections ss).2
          || (interfacePass (removeDuplicateSelections ss).1).2) with
      | false => rw [if_neg (by simp)]
      | true =>
        rw [if_pos rfl]
        apply ih true
        cases hm2 : (removeDuplicateSelections ss).2 with
        | true =>
          rw [hm2, Bool.toNat_true] at hm
          omega
        | false =>
          have heq := removeDuplicateSelections_no_change ss hm2
          rw [hm2, Bool.false_or] at hc
          rw [hc, Bool.toNat_true] at hp
          rw [heq] at hp ⊢
          omega

/-- C7: the fixed-point loop of the iterative deduplicator terminates on
every selection list: a merge pass that reports a change strictly decreases
the total selection-node count, so does an interface redundancy pass that
removes something, the count is bounded below by zero, and the do/while loop
(whose only repeat condition is that an iteration made a change) exits
within szL ss + 1 iterations, as witnessed by its completion flag. -/
theorem deduplicate_loop_terminates :
    (∀ ss : List Selection, (removeDuplicateSelections ss).2 = true →
      szL (removeDuplicateSelections ss).1 < szL ss) ∧
    (∀ ss : List Selection, (interfacePass ss).2 = true →
      szL (interfacePass ss).1 < szL ss) ∧
    (∀ (isIface : Bool) (ss : List Selection),
      (dedupLoop (szL ss + 1) isIface ss).2 = true) := by
  refine ⟨?_, ?_, ?_⟩
  · intro ss h
    have := removeDuplicateSelections_size ss
    rw [h, Bool.toNat_true] at this
    omega
  · intro ss h
    have := interfacePass_size ss
    rw [h, Bool.toNat_true] at this
    omega
  · intro isIface ss
    exact dedupLoop_completes (szL ss + 1) isIface ss (by omega)

theorem deduplicate_loop_terminates_witness :
    szL (removeDuplicateSelections [bareField "x", bareField "x"]).1
      < szL [bareField "x", bareField "x"] ∧
    szL (interfacePass exInterfaceSet).1 < szL exInterfaceSet ∧
    (dedupLoop (szL exInterfaceSet + 1) true exInterfaceSet).2 = true :=
  ⟨deduplicate_loop_terminates.1 [bareField "x", bareField "x"] rfl,
   deduplicate_loop_terminates.2.1 exInterfaceSet rfl,
   deduplicate_loop_terminates.2.2 true exInterfaceSet⟩

theorem selectionsAreEquivalent_shallowKey :
    ∀ s t : Selection, selectionsAreEquivalent s t
      = selectionsAreEquivalent (shallowKey s) (shallowKey t) := by
  intro s t
  cases s <;> cases t <;> rfl

theorem equiv_congr_left {s s' : Selection} (h : SameShallow s s') (t : Selection) :
    selectionsAreEquivalent s t = selectionsAreEquivalent s' t := by
  rw [selectionsAreEquivalent_shallowKey s t, selectionsAreEquivalent_shallowKey s' t, h]

theorem equiv_congr_right {s s' : Selection} (h : SameShallow s s') (t : Selection) :
    selectionsAreEquivalent t s = selectionsAreEquivalent t s' := by
  rw [selectionsAreEquivalent_shallowKey t s, selectionsAreEquivalent_shallowKey t s', h]

theorem sameShallow_refl (s : Selection) : SameShallow s s := rfl

theorem sameShallow_trans {a b c : Selection} (h1 : SameShallow a b) (h2 : SameShallow b c) :
    SameShallow a c := h1.trans h2

theorem sameShallow_withAppendedSub (t s : Selection) :
    SameShallow t (withAppendedSub t s) := by
  cases t with
  | field a n args dirs sub => cases sub <;> rfl
  | inlineFragment c dirs ss => rfl
  | fragmentSpread n dirs => rfl

theorem forall₂_shallow_refl : ∀ l : List Selection, List.Forall₂ SameShallow l l := by
  intro l
  induction l with
  | nil => exact List.Forall₂.nil
  | cons s rest ih => exact List.Forall₂.cons (sameShallow_refl s) ih

theorem forall₂_shallow_trans :
    ∀ {a b c : List Selection}, List.Forall₂ SameShallow a b → List.Forall₂ SameShallow b c →
      List.Forall₂ SameShallow a c := by
  intro a b c h1 h2
  induction h1 generalizing c with
  | nil => cases h2; exact List.Forall₂.nil
  | cons hs hrest ih =>
    cases h2 with
    | cons hs' hrest' => exact List.Forall₂.cons (sameShallow_trans hs hs') (ih hrest')

theorem forall₂_shallow_set :
    ∀ (l : List Selection) (i : Nat) (v w : Selection), l[i]? = some w → SameShallow w v →
      List.Forall₂ SameShallow l (l.set i v) := by
  intro l
  induction l with
  | nil => intro i v w h _; simp at h
  | cons a rest ih =>
    intro i v w h hs
    cases i with
    | zero =>
      simp at h
      subst h
      exact List.Forall₂.cons hs (forall₂_shallow_refl rest)
    | succ n =>
      simp at h
      exact List.Forall₂.cons (sameShallow_refl a) (ih n v w h hs)

theorem noEquivalentIn_congr :
    ∀ {rest rest' : List Selection}, List.Forall₂ SameShallow rest rest' →
      ∀ {e e' : Selection}, SameShallow e e' →
      noEquivalentIn e rest = noEquivalentIn e' rest' := by
  intro rest rest' h
  induction h with
  | nil => intro e e' _; rfl
  | @cons a b l₁ l₂ hs hrest ih =>
    intro e e' he
    simp only [noEquivalentIn, List.all_cons]
    have h1 : selectionsAreEquivalent a e = selectionsAreEquivalent b e' := by
      rw [equiv_congr_left hs e, equiv_congr_right he b]
    have h2 := ih he
    simp only [noEquivalentIn] at h2
    rw [h1, h2]

theorem pairwiseNonEquiv_congr :
    ∀ {ss ss' : List Selection}, List.Forall₂ SameShallow ss ss' →
      pairwiseNonEquiv ss = pairwiseNonEquiv ss' := by
  intro ss ss' h
  induction h with
  | nil => rfl
  | cons hs hrest ih =>
    simp only [pairwiseNonEquiv]
    rw [ih, noEquivalentIn_congr hrest hs]

theorem findIdx?_none_all {α : Type} (p : α → Bool) :
    ∀ l : List α, l.findIdx? p = none → ∀ x ∈ l, p x = false := by
  intro l h x hx
  rw [List.findIdx?_eq_none_iff] at h
  simpa using h x hx

theorem pairwise_append_one (s : Selection) :
    ∀ out : List Selection, pairwiseNonEquiv out = true →
      (∀ e ∈ out, selectionsAreEquivalent s e = false) →
      pairwiseNonEquiv (out ++ [s]) = true := by
  intro out
  induction out with
  | nil => intro _ _; simp [pairwiseNonEquiv, noEquivalentIn]
  | cons e rest ih =>
    intro hpw hall
    simp only [pairwiseNonEquiv, Bool.and_eq_true] at hpw
    have he : selectionsAreEquivalent s e = false := hall e (List.mem_cons_self e rest)
    have h1 : noEquivalentIn e (rest ++ [s]) = true := by
      have hne : noEquivalentIn e rest = true := hpw.1
      simp only [noEquivalentIn, List.all_append, List.all_cons, List.all_nil] at hne ⊢
      simp [hne, he]
    show (noEquivalentIn e (rest ++ [s]) && pairwiseNonEquiv (rest ++ [s])) = true
    rw [h1, ih hpw.2 (fun x hx => hall x (List.mem_cons_of_mem e hx))]
    rfl

theorem mergeIntoOutput_pairwise (out : List Selection) (s : Selection)
    (h : pairwiseNonEquiv out = true) :
    pairwiseNonEquiv (mergeIntoOutput out s).1 = true := by
  rw [mergeIntoOutput]
  cases hf : out.findIdx? (fun s2 => selectionsAreEquivalent s s2) with
  | none =>
    simp only
    exact pairwise_append_one s out h (findIdx?_none_all _ out hf)
  | some j =>
    simp only
    cases hg : out[j]? with
    | none => exact h
    | some s2 =>
      cases hs : hasSubSelections s2 with
      | false => simpa [hs] using h
      | true =>
        simp only [hs, if_true]
        rw [← pairwiseNonEquiv_congr
          (forall₂_shallow_set out j (withAppendedSub s2 s) s2 hg
            (sameShallow_withAppendedSub s2 s))]
        exact h

theorem rds_aux_pairwise : ∀ (rest l : List Selection) (b : Bool),
    pairwiseNonEquiv l = true →
    pairwiseNonEquiv (removeDuplicateSelectionsAux (l, b) rest).1 = true := by
  intro rest
  induction rest with
  | nil => intro l b h; exact h
  | cons s rest' ih =>
    intro l b h
    rw [rds_aux_step]
    exact ih (mergeIntoOutput l s).1 _ (mergeIntoOutput_pairwise l s h)

theorem removeDuplicateSelections_pairwise (ss : List Selection) :
    pairwiseNonEquiv (removeDuplicateSelections ss).1 = true :=
  rds_aux_pairwise ss [] false rfl

theorem interfacePassFrom_shallow :
    ∀ (k i : Nat) (st : List Selection),
      List.Forall₂ SameShallow st (interfacePassFrom k i st).1 := by
  intro k
  induction k with
  | zero => intro i st; exact forall₂_shallow_refl st
  | succ k ih =>
    intro i st
    cases hst : st[i]? with
    | none => simpa [interfacePassFrom, hst] using ih (i+1) st
    | some s =>
      cases s with
      | field a n args dirs sub => simpa [interfacePassFrom, hst] using ih (i+1) st
      | fragmentSpread n dirs => simpa [interfacePassFrom, hst] using ih (i+1) st
      | inlineFragment c dirs body =>
        simp only [interfacePassFrom, hst]
        apply forall₂_shallow_trans
          (forall₂_shallow_set st i
            (.inlineFragment c dirs
              (body.filter (fun sel => !selectionIsLeadingRedundant sel st i)))
            (.inlineFragment c dirs body) hst rfl)
        exact ih (i+1) _

theorem interfacePass_shallow (ss : List Selection) :
    List.Forall₂ SameShallow ss (interfacePass ss).1 :=
  interfacePassFrom_shallow ss.length 0 ss

theorem dedupLoop_pairwise : ∀ (f : Nat) (b : Bool) (ss : List Selection),
    szL ss < f → pairwiseNonEquiv (dedupLoop f b ss).1 = true := by
  intro f
  induction f with
  | zero => intro b ss h; omega
  | succ f ih =>
    intro b ss h
    cases b with
    | false =>
      rw [dedupLoop_succ_false]
      exact removeDuplicateSelections_pairwise ss
    | true =>
      rw [dedupLoop_succ_true]
      have hm := removeDuplicateSelections_size ss
      have hp := interfacePass_size (removeDuplicateSelections ss).1
      cases hc : ((removeDuplicateSelections ss).2
          || (interfacePass (removeDuplicateSelections ss).1).2) with
      | false =>
        rw [if_neg (by simp)]
        have h0 : ((interfacePass (removeDuplicateSelections ss).1).1, true).1
            = (interfacePass (removeDuplicateSelections ss).1).1 := rfl
        rw [h0, ← pairwiseNonEquiv_congr (interfacePass_shallow (removeDuplicateSelections ss).1)]
        exact removeDuplicateSelections_pairwise ss
      | true =>
        rw [if_pos rfl]
        apply ih true
        cases hm2 : (removeDuplicateSelections ss).2 with
        | true =>
          rw [hm2, Bool.toNat_true] at hm
          omega
        | false =>
          have heq := removeDuplicateSelections_no_change ss hm2
          rw [hm2, Bool.false_or] at hc
          rw [hc, Bool.toNat_true] at hp
          rw [heq] at hp ⊢
          omega

theorem szS_le_of_mem : ∀ (l : List Selection) (s : Selection), s ∈ l → szS s ≤ szL l := by
  intro l
  induction l with
  | nil => intro s h; simp at h
  | cons a rest ih =>
    intro s h
    cases h with
    | head => simp only [szL]; omega
    | tail _ hmem =>
      have := ih s hmem
      simp only [szL]
      omega

theorem dedupInvAll_of_forall : ∀ l : List Selection,
    (∀ s ∈ l, dedupInvS s = true) → dedupInvAll l = true := by
  intro l
  induction l with
  | nil => intro _; rfl
  | cons s rest ih =>
    intro h
    simp only [dedupInvAll, Bool.and_eq_true]
    exact ⟨h s (List.mem_cons_self s rest),
      ih (fun x hx => h x (List.mem_cons_of_mem s hx))⟩

theorem forall₂_shallow_map (f : Selection → Selection) (hf : ∀ s, SameShallow s (f s)) :
    ∀ l : List Selection, List.Forall₂ SameShallow l (l.map f) := by
  intro l
  induction l with
  | nil => exact List.Forall₂.nil
  | cons s rest ih => exact List.Forall₂.cons (hf s) ih

theorem dedupSelsTop_succ (sch : Schema) (fuel : Nat) (cur : Option GType)
    (ss : List Selection) :
    deduplicateSelectionSets sch (fuel+1) cur ss
      = ((dedupLoop (szL ss + 1) (isInterfaceType sch cur) ss).1).map (fun s =>
          match s with
          | .field a n args dirs (some sub) =>
            .field a n args dirs
              (some (deduplicateSelectionSets sch fuel (fieldChildType sch cur n) sub))
          | .field a n args dirs none => .field a n args dirs none
          | .inlineFragment c dirs body =>
            .inlineFragment c dirs
              (deduplicateSelectionSets sch fuel (fragChildType sch cur c) body)
          | .fragmentSpread n dirs => .fragmentSpread n dirs) := rfl

theorem dedupSelsTop_inv :
    ∀ (fuel : Nat) (sch : Schema) (cur : Option GType) (ss : List Selection),
      szL ss < fuel → dedupInvL (deduplicateSelectionSets sch fuel cur ss) = true := by
  intro fuel
  induction fuel with
  | zero => intro sch cur ss h; omega
  | succ fuel ih =>
    intro sch cur ss h
    rw [dedupSelsTop_succ]
    have hpw : pairwiseNonEquiv (dedupLoop (szL ss + 1) (isInterfaceType sch cur) ss).1 = true :=
      dedupLoop_pairwise _ _ ss (by omega)
    have hsz : szL (dedupLoop (szL ss + 1) (isInterfaceType sch cur) ss).1 ≤ szL ss :=
      dedupLoop_size _ _ ss
    simp only [dedupInvL, Bool.and_eq_true]
    constructor
    · rw [← pairwiseNonEquiv_congr (forall₂_shallow_map _ ?_ _)]
      · exact hpw
      · intro s
        cases s with
        | field a n args dirs sub => cases sub <;> rfl
        | inlineFragment c dirs body => rfl
        | fragmentSpread n dirs => rfl
    · apply dedupInvAll_of_forall
      intro x hx
      obtain ⟨s, hsmem, rfl⟩ := List.mem_map.mp hx
      have hs_sz : szS s ≤ szL ss :=
        le_trans (szS_le_of_mem _ s hsmem) hsz
      cases s with
      | field a n args dirs sub =>
        cases sub with
        | none => rfl
        | some sub =>
          have hsub : szL sub < fuel := by
            have : szS (Selection.field a n args dirs (some sub)) = 1 + szL sub := rfl
            omega
          have hchild := ih sch (fieldChildType sch cur n) sub hsub
          simp only [dedupInvL, Bool.and_eq_true] at hchild
          simp only [dedupInvS, Bool.and_eq_true]
          exact hchild
      | inlineFragment c dirs body =>
        have hsub : szL body < fuel := by
          have : szS (Selection.inlineFragment c dirs body) = 1 + szL body := rfl
          omega
        have hchild := ih sch (fragChildType sch cur c) body hsub
        simp only [dedupInvL, Bool.and_eq_true] at hchild
        simp only [dedupInvS, Bool.and_eq_true]
        exact hchild
      | fragmentSpread n dirs => rfl

theorem deduplicateSelections_inv :
    ∀ (sch : Schema) (d : Document), dedupInvDoc (deduplicateSelections sch d) = true := by
  intro sch d
  induction d with
  | nil => rfl
  | cons df rest ih =>
    cases df with
    | operation t nm dirs ss =>
      simp only [deduplicateSelections, dedupInvDoc, Bool.and_eq_true]
      exact ⟨dedupSelsTop_inv (szL ss + 1) sch _ ss (by omega), ih⟩
    | fragmentDefinition nm c dirs ss =>
      simp only [deduplicateSelections, dedupInvDoc, Bool.and_eq_true]
      exact ⟨dedupSelsTop_inv (szL ss + 1) sch _ ss (by omega), ih⟩

theorem rbVL_eq_map : ∀ l : List Value,
    removeBlockStringsVL l = l.map removeBlockStringsV := by
  intro l
  induction l with
  | nil => rfl
  | cons v rest ih => simp [removeBlockStringsVL, ih]

theorem rbVF_eq_map : ∀ l : List (String × Value),
    removeBlockStringsVF l = l.map (fun p => (p.1, removeBlockStringsV p.2)) := by
  intro l
  induction l with
  | nil => rfl
  | cons p rest ih => cases p; simp [removeBlockStringsVF, ih]

theorem szV_le_of_memVL : ∀ (l : List Value) (x : Value), x ∈ l → szV x ≤ szVL l := by
  intro l
  induction l with
  | nil => intro x h; simp at h
  | cons a rest ih =>
    intro x h
    cases h with
    | head => simp only [szVL]; omega
    | tail _ hmem =>
      have := ih x hmem
      simp only [szVL]
      omega

theorem szV_le_of_memVF : ∀ (l : List (String × Value)) (x : String × Value),
    x ∈ l → szV x.2 ≤ szVF l := by
  intro l
  induction l with
  | nil => intro x h; simp at h
  | cons a rest ih =>
    intro x h
    cases h with
    | head => cases a; simp only [szVF]; omega
    | tail _ hmem =>
      have := ih x hmem
      cases a
      simp only [szVF]
      omega

theorem rb_values_equiv : ∀ k : Nat, ∀ a b : Value, szV a ≤ k →
    valuesAreEquivalent (removeBlockStringsV a) (removeBlockStringsV b)
      = valuesAreEquivalent a b := by
  intro k
  induction k using Nat.strong_induction_on with
  | _ k ih =>
    intro a b ha
    cases a with
    | var x => cases b <;> rfl
    | intV x => cases b <;> rfl
    | floatV x => cases b <;> rfl
    | stringV x bl => cases b <;> rfl
    | boolV x => cases b <;> rfl
    | nullV => cases b <;> rfl
    | enumV x => cases b <;> rfl
    | listV as =>
      cases b with
      | listV bs =>
        have hszas : szVL as < k := by
          have : szV (Value.listV as) = 1 + szVL as := rfl
          omega
        have hlists : ∀ (xs ys : List Value), (∀ x ∈ xs, szV x < k) →
            valueListsAreEquivalent (removeBlockStringsVL xs) (removeBlockStringsVL ys)
              = valueListsAreEquivalent xs ys := by
          intro xs
          induction xs with
          | nil => intro ys _; cases ys <;> rfl
          | cons x xs' ihx =>
            intro ys hsz
            cases ys with
            | nil => rfl
            | cons y ys' =>
              simp only [removeBlockStringsVL, valueListsAreEquivalent]
              rw [ih (szV x) (hsz x (List.mem_cons_self x xs')) x y le_rfl]
              rw [ihx ys' (fun z hz => hsz z (List.mem_cons_of_mem x hz))]
        have hlen : ∀ l : List Value, (removeBlockStringsVL l).length = l.length := by
          intro l
          rw [rbVL_eq_map, List.length_map]
        show ((removeBlockStringsVL as).length == (removeBlockStringsVL bs).length
            && valueListsAreEquivalent (removeBlockStringsVL as) (removeBlockStringsVL bs))
          = (as.length == bs.length && valueListsAreEquivalent as bs)
        rw [hlen, hlen, hlists as bs
          (fun x hx => lt_of_le_of_lt (szV_le_of_memVL as x hx) hszas)]
      | var x => rfl
      | intV x => rfl
      | floatV x => rfl
      | stringV x bl => rfl
      | boolV x => rfl
      | nullV => rfl
      | enumV x => rfl
      | objectV bf => rfl
    | objectV af =>
      cases b with
      | objectV bf =>
        have hszaf : szVF af < k := by
          have : szV (Value.objectV af) = 1 + szVF af := rfl
          omega
        have hfind : ∀ (l : List (String × Value)) (n : String),
            (removeBlockStringsVF l).reverse.find? (fun f => f.1 == n)
              = Option.map (fun p => (p.1, removeBlockStringsV p.2))
                  (l.reverse.find? (fun f => f.1 == n)) := by
          intro l n
          rw [rbVF_eq_map, ← List.map_reverse, List.find?_map]
          rfl
        have hobj : ∀ (xs : List (String × Value)), (∀ x ∈ xs, szV x.2 < k) →
            objectFieldsAreEquivalent (removeBlockStringsVF xs) (removeBlockStringsVF bf)
              = objectFieldsAreEquivalent xs bf := by
          intro xs
          induction xs with
          | nil => intro _; rfl
          | cons x xs' ihx =>
            intro hsz
            cases x with
            | mk n v =>
              simp only [removeBlockStringsVF, objectFieldsAreEquivalent]
              rw [hfind bf n]
              cases hbf : bf.reverse.find? (fun f => f.1 == n) with
              | none =>
                simp only [Option.map_none']
                rw [ihx (fun z hz => hsz z (List.mem_cons_of_mem _ hz))]
              | some p =>
                simp only [Option.map_some']
                rw [ihx (fun z hz => hsz z (List.mem_cons_of_mem _ hz))]
                have hv : szV v < k :=
                  hsz (n, v) (List.mem_cons_self _ xs')
                rw [show valuesAreEquivalent (removeBlockStringsV v)
                    ((fun p => (p.1, removeBlockStringsV p.2)) p).2
                    = valuesAreEquivalent (removeBlockStringsV v) (removeBlockStringsV p.2)
                  from rfl]
                rw [ih (szV v) hv v p.2 le_rfl]
        have hlen : ∀ l : List (String × Value), (removeBlockStringsVF l).length = l.length := by
          intro l
          rw [rbVF_eq_map, List.length_map]
        show ((removeBlockStringsVF af).length == (removeBlockStringsVF bf).length
            && objectFieldsAreEquivalent (removeBlockStringsVF af) (removeBlockStringsVF bf))
          = (af.length == bf.length && objectFieldsAreEquivalent af bf)
        rw [hlen, hlen, hobj af
          (fun x hx => lt_of_le_of_lt (szV_le_of_memVF af x hx) hszaf)]
      | var x => rfl
      | intV x => rfl
      | floatV x => rfl
      | stringV x bl => rfl
      | boolV x => rfl
      | nullV => rfl
      | enumV x => rfl
      | listV bs => rfl

theorem rb_valuesAreEquivalent (a b : Value) :
    valuesAreEquivalent (removeBlockStringsV a) (removeBlockStringsV b)
      = valuesAreEquivalent a b :=
  rb_values_equiv (szV a) a b le_rfl

theorem rb_argsAllFoundIn : ∀ a b : List Argument,
    argsAllFoundIn (a.map removeBlockStringsArg) (b.map removeBlockStringsArg)
      = argsAllFoundIn a b := by
  intro a b
  induction a with
  | nil => rfl
  | cons x rest ih =>
    simp only [List.map_cons, argsAllFoundIn]
    rw [ih]
    have hfind : (b.map removeBlockStringsArg).reverse.find?
        (fun arg => arg.name == (removeBlockStringsArg x).name)
        = Option.map removeBlockStringsArg (b.reverse.find? (fun arg => arg.name == x.name)) := by
      rw [← List.map_reverse, List.find?_map]
      rfl
    rw [hfind]
    cases hbf : b.reverse.find? (fun arg => arg.name == x.name) with
    | none => rfl
    | some bArg =>
      simp only [Option.map_some']
      rw [show valuesAreEquivalent (removeBlockStringsArg x).value
          (removeBlockStringsArg bArg).value
          = valuesAreEquivalent (removeBlockStringsV x.value) (removeBlockStringsV bArg.value)
        from rfl]
      rw [rb_valuesAreEquivalent]

theorem rb_argumentsAreEquivalent (a b : List Argument) :
    argumentsAreEquivalent (a.map removeBlockStringsArg) (b.map removeBlockStringsArg)
      = argumentsAreEquivalent a b := by
  simp only [argumentsAreEquivalent, List.length_map]
  rw [rb_argsAllFoundIn]

theorem rb_directivePairs : ∀ a b : List Directive,
    directivePairsAreEquivalent (a.map removeBlockStringsDir) (b.map removeBlockStringsDir)
      = directivePairsAreEquivalent a b := by
  intro a
  induction a with
  | nil => intro b; rfl
  | cons x rest ih =>
    intro b
    cases b with
    | nil => rfl
    | cons y brest =>
      simp only [List.map_cons, directivePairsAreEquivalent]
      rw [ih brest]
      rw [show (removeBlockStringsDir x).name = x.name from rfl]
      rw [show (removeBlockStringsDir y).name = y.name from rfl]
      rw [show argumentsAreEquivalent (removeBlockStringsDir x).args (removeBlockStringsDir y).args
          = argumentsAreEquivalent (x.args.map removeBlockStringsArg)
              (y.args.map removeBlockStringsArg) from rfl]
      rw [rb_argumentsAreEquivalent]

theorem rb_directivesAreEquivalent (a b : List Directive) :
    directivesAreEquivalent (a.map removeBlockStringsDir) (b.map removeBlockStringsDir)
      = directivesAreEquivalent a b := by
  simp only [directivesAreEquivalent, List.length_map]
  rw [rb_directivePairs]

theorem rb_selectionsAreEquivalent : ∀ a b : Selection,
    selectionsAreEquivalent (removeBlockStringsS a) (removeBlockStringsS b)
      = selectionsAreEquivalent a b := by
  intro a b
  cases a with
  | field al₁ n₁ as₁ ds₁ sub₁ =>
    cases b with
    | field al₂ n₂ as₂ ds₂ sub₂ =>
      cases sub₁ <;> cases sub₂ <;>
        (simp only [removeBlockStringsS, selectionsAreEquivalent, fieldsAreEquivalent]
         rw [rb_argumentsAreEquivalent, rb_directivesAreEquivalent])
    | inlineFragment c₂ d₂ b₂ => cases sub₁ <;> rfl
    | fragmentSpread n₂ d₂ => cases sub₁ <;> rfl
  | inlineFragment c₁ d₁ b₁ =>
    cases b with
    | field al₂ n₂ as₂ ds₂ sub₂ => cases sub₂ <;> rfl
    | inlineFragment c₂ d₂ b₂ =>
      simp only [removeBlockStringsS, selectionsAreEquivalent, inlineFragmentsAreEquivalent]
      rw [rb_directivesAreEquivalent]
    | fragmentSpread n₂ d₂ => rfl
  | fragmentSpread n₁ d₁ =>
    cases b with
    | field al₂ n₂ as₂ ds₂ sub₂ => cases sub₂ <;> rfl
    | inlineFragment c₂ d₂ b₂ => rfl
    | fragmentSpread n₂ d₂ =>
      simp only [removeBlockStringsS, selectionsAreEquivalent, fragmentSpreadsAreEquivalent]
      rw [rb_directivesAreEquivalent]

theorem rb_noEquivalentIn : ∀ (rest : List Selection) (e : Selection),
    noEquivalentIn (removeBlockStringsS e) (removeBlockStringsL rest) = noEquivalentIn e rest := by
  intro rest
  induction rest with
  | nil => intro e; rfl
  | cons s rest' ih =>
    intro e
    simp only [removeBlockStringsL, noEquivalentIn, List.all_cons]
    rw [rb_selectionsAreEquivalent]
    have := ih e
    simp only [noEquivalentIn] at this
    rw [this]

theorem rb_pairwiseNonEquiv : ∀ ss : List Selection,
    pairwiseNonEquiv (removeBlockStringsL ss) = pairwiseNonEquiv ss := by
  intro ss
  induction ss with
  | nil => rfl
  | cons s rest ih =>
    simp only [removeBlockStringsL, pairwiseNonEquiv]
    rw [rb_noEquivalentIn, ih]

theorem rb_dedupInv : ∀ k : Nat,
    (∀ s : Selection, szS s ≤ k → dedupInvS (removeBlockStringsS s) = dedupInvS s) ∧
    (∀ ss : List Selection, szL ss ≤ k →
      dedupInvAll (removeBlockStringsL ss) = dedupInvAll ss) := by
  intro k
  induction k using Nat.strong_induction_on with
  | _ k ih =>
    have hsel : ∀ s : Selection, szS s ≤ k →
        dedupInvS (removeBlockStringsS s) = dedupInvS s := by
      intro s hs
      cases s with
      | field a n args dirs sub =>
        cases sub with
        | none => rfl
        | some ss =>
          have hk : szL ss < k := by
            have : szS (Selection.field a n args dirs (some ss)) = 1 + szL ss := rfl
            omega
          simp only [removeBlockStringsS, dedupInvS]
          rw [rb_pairwiseNonEquiv, (ih (szL ss) hk).2 ss le_rfl]
      | inlineFragment c dirs body =>
        have hk : szL body < k := by
          have : szS (Selection.inlineFragment c dirs body) = 1 + szL body := rfl
          omega
        simp only [removeBlockStringsS, dedupInvS]
        rw [rb_pairwiseNonEquiv, (ih (szL body) hk).2 body le_rfl]
      | fragmentSpread n dirs => rfl
    refine ⟨hsel, ?_⟩
    intro ss
    induction ss with
    | nil => intro _; rfl
    | cons s rest ihl =>
      intro hss
      have h1s : 1 ≤ szS s := szS_pos s
      have hs : szS s ≤ k := by simp only [szL] at hss; omega
      have hrest : szL rest ≤ k := by simp only [szL] at hss; omega
      simp only [removeBlockStringsL, dedupInvAll]
      rw [hsel s hs, ihl hrest]

theorem rb_dedupInvDoc : ∀ d : Document,
    dedupInvDoc (removeBlockStrings d) = dedupInvDoc d := by
  intro d
  induction d with
  | nil => rfl
  | cons df rest ih =>
    cases df with
    | operation t nm dirs ss =>
      simp only [removeBlockStrings, dedupInvDoc, dedupInvL]
      rw [rb_pairwiseNonEquiv, ((rb_dedupInv (szL ss)).2 ss le_rfl), ih]
    | fragmentDefinition nm c dirs ss =>
      simp only [removeBlockStrings, dedupInvDoc, dedupInvL]
      rw [rb_pairwiseNonEquiv, ((rb_dedupInv (szL ss)).2 ss le_rfl), ih]

/-- C2: after the full pipeline no selection set of the output document has
two sibling selections equivalent under the shallow relation (duplicates
were merged, the first occurrence keeping its position and concatenating the
nested selections), and the spec's sibling-merge example evaluates as
claimed: f { name } next to f { name birthday } becomes the single
f { name birthday }. -/
theorem normalize_no_equivalent_siblings :
    (∀ (sch : Schema) (d d' : Document), normalize sch d = .ok d' →
      dedupInvDoc d' = true) ∧
    normalize testSchema docMerge
      = .ok [.operation .query none [] [nodeField "f" [bareField "name", bareField "birthday"]]] := by
  refine ⟨?_, rfl⟩
  intro sch d d' h
  cases h1 : inlineFragments d with
  | error e => rw [normalize, h1, errBind] at h; simp at h
  | ok d1 =>
    rw [normalize, h1, okBind] at h
    have hd' : d' = removeBlockStrings (deduplicateSelections sch
        (flattenSelections (removeRedundantTypeConditions sch d1))) := by
      simpa using h.symm
    rw [hd', rb_dedupInvDoc]
    exact deduplicateSelections_inv sch _

theorem normalize_no_equivalent_siblings_witness :
    dedupInvDoc [Definition.operation .query none []
      [nodeField "f" [bareField "name", bareField "birthday"]]] = true :=
  normalize_no_equivalent_siblings.1 testSchema docMerge _ rfl

theorem mem_of_getElem?_sel : ∀ (l : List Selection) (j : Nat) (s : Selection),
    l[j]? = some s → s ∈ l := by
  intro l
  induction l with
  | nil => intro j s h; simp at h
  | cons a rest ih =>
    intro j s h
    cases j with
    | zero => simp at h; subst h; exact List.mem_cons_self a rest
    | succ n =>
      simp at h
      exact List.mem_cons_of_mem a (ih n s h)

theorem mem_set_cases : ∀ (l : List Selection) (j : Nat) (v x : Selection),
    x ∈ l.set j v → x ∈ l ∨ x = v := by
  intro l
  induction l with
  | nil => intro j v x h; simp [List.set] at h
  | cons a rest ih =>
    intro j v x h
    cases j with
    | zero =>
      simp only [List.set] at h
      cases h with
      | head => exact Or.inr rfl
      | tail _ hmem => exact Or.inl (List.mem_cons_of_mem a hmem)
    | succ n =>
      simp only [List.set] at h
      cases h with
      | head => exact Or.inl (List.mem_cons_self a rest)
      | tail _ hmem =>
        cases ih n v x hmem with
        | inl h1 => exact Or.inl (List.mem_cons_of_mem a h1)
        | inr h2 => exact Or.inr h2

theorem subSelections_withAppendedSub (t s : Selection) (h : hasSubSelections t = true) :
    subSelections (withAppendedSub t s) = subSelections t ++ subSelections s := by
  cases t with
  | field a n args dirs sub =>
    cases sub with
    | none => simp [hasSubSelections] at h
    | some ss => rfl
  | inlineFragment c dirs ss => rfl
  | fragmentSpread n dirs => simp [hasSubSelections] at h

theorem mergeIntoOutput_origin (inputs l : List Selection) (s : Selection)
    (hl : ∀ x ∈ l, MergeOrigin inputs x) (hs : s ∈ inputs) :
    ∀ x ∈ (mergeIntoOutput l s).1, MergeOrigin inputs x := by
  intro x hx
  rw [mergeIntoOutput] at hx
  cases hf : l.findIdx? (fun s2 => selectionsAreEquivalent s s2) with
  | none =>
    rw [hf] at hx
    simp only at hx
    rcases List.mem_append.mp hx with h1 | h2
    · exact hl x h1
    · have : x = s := by simpa using h2
      subst this
      exact ⟨x, hs, sameShallow_refl x, [], by simp⟩
  | some j =>
    rw [hf] at hx
    simp only at hx
    cases hg : l[j]? with
    | none => rw [hg] at hx; exact hl x hx
    | some s2 =>
      rw [hg] at hx
      cases hsub : hasSubSelections s2 with
      | false => simp only [hsub] at hx; exact hl x (by simpa using hx)
      | true =>
        simp only [hsub, if_true] at hx
        cases mem_set_cases l j (withAppendedSub s2 s) x hx with
        | inl h1 => exact hl x h1
        | inr h2 =>
          subst h2
          obtain ⟨s0, hmem0, hsh0, t0, ht0⟩ := hl s2 (mem_of_getElem?_sel l j s2 hg)
          refine ⟨s0, hmem0, sameShallow_trans hsh0 (sameShallow_withAppendedSub s2 s), ?_⟩
          refine ⟨t0 ++ subSelections s, ?_⟩
          rw [subSelections_withAppendedSub s2 s hsub, ht0, List.append_assoc]

theorem rds_aux_origin : ∀ (rest l : List Selection) (b : Bool) (inputs : List Selection),
    (∀ x ∈ l, MergeOrigin inputs x) → (∀ x ∈ rest, x ∈ inputs) →
    ∀ x ∈ (removeDuplicateSelectionsAux (l, b) rest).1, MergeOrigin inputs x := by
  intro rest
  induction rest with
  | nil => intro l b inputs hl _; exact hl
  | cons s rest' ih =>
    intro l b inputs hl hrest
    rw [rds_aux_step]
    exact ih (mergeIntoOutput l s).1 _ inputs
      (mergeIntoOutput_origin inputs l s hl (hrest s (List.mem_cons_self s rest')))
      (fun x hx => hrest x (List.mem_cons_of_mem s hx))

theorem removeDuplicateSelections_origin (ss : List Selection) :
    ∀ x ∈ (removeDuplicateSelections ss).1, MergeOrigin ss x := by
  intro x hx
  exact rds_aux_origin ss [] false ss (by intro y hy; simp at hy) (fun y hy => hy) x hx

/-- C3: the interface redundancy pass fires only at interface-typed
selection sets.  At a non-interface current type the visitor's loop returns
the bare merge pass at once, and the merge pass never removes a selection
from any nested selection set: every output selection extends the nested
selections of an input selection with the same shallow data.  Concretely: at
the interface-typed profile selection set the leading duplicate handle is
removed from the User fragment body, while at the union-typed userResult and
the object-typed user selection sets the identical duplicates inside the
fragments survive the full pipeline unchanged. -/
theorem interface_redundancy_only_on_interfaces :
    (∀ (f : Nat) (ss : List Selection),
      dedupLoop (f+1) false ss = ((removeDuplicateSelections ss).1, true)) ∧
    (∀ ss : List Selection, ∀ x ∈ (removeDuplicateSelections ss).1, MergeOrigin ss x) ∧
    normalize testSchema docLead
      = .ok [.operation .query none [] [.field none "profile" [idArg4] []
          (some [bareField "handle", .inlineFragment (some "User") [] [bareField "name"]])]] ∧
    normalize testSchema docUnion = .ok docUnion ∧
    normalize testSchema docObj = .ok docObj :=
  ⟨fun f ss => dedupLoop_succ_false f ss, removeDuplicateSelections_origin, rfl, rfl, rfl⟩

theorem interface_redundancy_only_on_interfaces_witness :
    MergeOrigin [bareField "x", bareField "x"] (bareField "x") :=
  interface_redundancy_only_on_interfaces.2.1 [bareField "x", bareField "x"] (bareField "x")
    (show bareField "x" ∈ [bareField "x"] from List.mem_singleton.mpr rfl)

end GqlNorm
